import Mathlib

/-!
Formal model of `src/simulator/node.py`: the rated-list peer scoring data
structure.  Python dicts are modelled as insertion-ordered association lists,
Python sets as duplicate-free lists kept in insertion order, Python floats as
exact rationals, and Python exceptions as explicit error values.  Source loops
that need not terminate are modelled with an explicit round counter (fuel);
exhausting the counter is reported as `Err.fuelOut` and a function that yields
`Err.fuelOut` for every fuel value models a source loop that never terminates.
-/

deriving instance DecidableEq for Except

namespace RatedList

abbrev NodeId := Nat
abbrev SampleId := Nat
abbrev Root := Nat

/-- Python exceptions observable in `node.py` (`KeyError` from dict lookups,
`ValueError` from `list.remove`, `ZeroDivisionError` from the mean in
`filter_nodes`), plus `fuelOut`, which models a loop that is still running
after the given number of rounds. -/
inductive Err where
  | keyError : Err
  | valueError : Err
  | zeroDiv : Err
  | fuelOut : Err
deriving DecidableEq, Repr

/-- Python dict: an insertion-ordered association list with unique keys. -/
abbrev Dict (α β : Type) := List (α × β)

/-- Python `d[k]` as an option (`none` models `KeyError`). -/
def dget {α β : Type} [DecidableEq α] : Dict α β → α → Option β
  | [], _ => none
  | (a, b) :: t, k => if a = k then some b else dget t k

/-- Python `d[k] = v`: replace the entry in place if the key is present,
append a new entry at the end otherwise. -/
def dset {α β : Type} [DecidableEq α] : Dict α β → α → β → Dict α β
  | [], k, v => [(k, v)]
  | (a, b) :: t, k, v => if a = k then (k, v) :: t else (a, b) :: dset t k v

/-- Python `del d[k]`: remove the entry with the given key. -/
def ddel {α β : Type} [DecidableEq α] (d : Dict α β) (k : α) : Dict α β :=
  d.filter (fun p => p.1 ≠ k)

/-- Python `s.add(x)` on a set represented as a duplicate-free list in
insertion order. -/
def setAdd {α : Type} [DecidableEq α] (l : List α) (x : α) : List α :=
  if x ∈ l then l else l ++ [x]

/-- Python `s.update(xs)`. -/
def setUnion {α : Type} [DecidableEq α] (l : List α) (xs : List α) : List α :=
  xs.foldl setAdd l

section DictLemmas

variable {α β : Type} [DecidableEq α]

theorem dget_nil {k : α} : dget ([] : Dict α β) k = none := rfl

theorem dget_dset (d : Dict α β) (k k' : α) (v : β) :
    dget (dset d k v) k' = if k' = k then some v else dget d k' := by
  induction d with
  | nil =>
    simp only [dset, dget]
    by_cases h : k = k'
    · rw [if_pos h, if_pos h.symm]
    · rw [if_neg h, if_neg (fun hh => h hh.symm)]
  | cons p t ih =>
    obtain ⟨a, b⟩ := p
    by_cases hak : a = k
    · subst hak
      simp only [dset, if_pos rfl, dget]
      by_cases h : a = k'
      · rw [if_pos h, if_pos h.symm]
      · rw [if_neg h, if_neg (fun hh => h hh.symm), if_neg h]
    · simp only [dset, if_neg hak, dget, ih]
      by_cases h1 : a = k'
      · by_cases h2 : k' = k
        · exact absurd (h1.trans h2) hak
        · rw [if_pos h1, if_neg h2, if_pos h1]
      · by_cases h2 : k' = k
        · rw [if_neg h1, if_pos h2, if_pos h2]
        · rw [if_neg h1, if_neg h2, if_neg h2, if_neg h1]

theorem dget_ddel (d : Dict α β) (k k' : α) :
    dget (ddel d k) k' = if k' = k then none else dget d k' := by
  induction d with
  | nil =>
    simp only [ddel, List.filter_nil, dget]
    by_cases h : k' = k
    · rw [if_pos h]
    · rw [if_neg h]
  | cons p t ih =>
    obtain ⟨a, b⟩ := p
    by_cases hak : a = k
    · subst hak
      simp only [ddel, List.filter] at *
      rw [show (decide ¬(a, b).1 = a) = false by simp]
      simp only [dget, ih]
      by_cases h : k' = a
      · rw [if_pos h, if_pos h]
      · rw [if_neg h, if_neg h, if_neg (fun hh => h hh.symm)]
    · simp only [ddel, List.filter] at *
      rw [show (decide ¬(a, b).1 = k) = true by simp [hak]]
      simp only [dget, ih]
      by_cases h1 : a = k'
      · by_cases h2 : k' = k
        · exact absurd (h1.trans h2) hak
        · rw [if_pos h1, if_neg h2, if_pos h1]
      · by_cases h2 : k' = k
        · rw [if_neg h1, if_pos h2, if_pos h2]
        · rw [if_neg h1, if_neg h2, if_neg h2, if_neg h1]

end DictLemmas

section SetLemmas

variable {α : Type} [DecidableEq α]

theorem mem_setAdd {l : List α} {x y : α} :
    y ∈ setAdd l x ↔ y ∈ l ∨ y = x := by
  unfold setAdd
  split
  · constructor
    · exact fun h => Or.inl h
    · rintro (h | rfl)
      · exact h
      · assumption
  · simp [List.mem_append]

theorem setAdd_of_mem {l : List α} {x : α} (h : x ∈ l) : setAdd l x = l := by
  simp [setAdd, h]

theorem mem_setUnion {l xs : List α} {y : α} :
    y ∈ setUnion l xs ↔ y ∈ l ∨ y ∈ xs := by
  induction xs generalizing l with
  | nil => simp [setUnion]
  | cons a t ih =>
    simp only [setUnion, List.foldl] at *
    rw [ih (l := setAdd l a)]
    simp [mem_setAdd, List.mem_cons]
    tauto

theorem setUnion_of_subset {l xs : List α} (h : ∀ x ∈ xs, x ∈ l) :
    setUnion l xs = l := by
  induction xs generalizing l with
  | nil => rfl
  | cons a t ih =>
    simp only [setUnion, List.foldl]
    rw [setAdd_of_mem (h a (by simp))]
    exact ih fun x hx => h x (by simp [hx])

theorem mem_of_mem_setAdd_self {l : List α} {x : α} : x ∈ setAdd l x := by
  simp [mem_setAdd]

end SetLemmas

/-! ## Data model (node.py lines 16-50) -/

/-- NodeRecord (node.py lines 16-21). -/
structure NodeRecord where
  node_id : NodeId
  children : List NodeId
  parents : List NodeId
deriving DecidableEq, Repr

/-- ScoreKeeper (node.py lines 23-29): per ancestor node id, the set of
`(descendant, sample)` pairs contacted resp. replied. -/
structure ScoreKeeper where
  descendants_contacted : Dict NodeId (List (NodeId × SampleId))
  descendants_replied : Dict NodeId (List (NodeId × SampleId))
deriving DecidableEq, Repr

/-- RatedListDHT (node.py lines 31-37). -/
structure RatedListDHT where
  sample_mapping : Dict SampleId (List NodeId)
  nodes : Dict NodeId NodeRecord
  scores : Dict Root ScoreKeeper
deriving DecidableEq, Repr

/-- A node in the network (node.py lines 40-50); `Node.__init__` registers the
node's own record. -/
structure Node where
  own_id : NodeId
  dht : RatedListDHT
deriving DecidableEq, Repr

/-- Node.__init__ (node.py lines 43-50). -/
def Node.init (id : NodeId) : Node :=
  { own_id := id
    dht := { sample_mapping := []
             nodes := [(id, ⟨id, [], []⟩)]
             scores := [] } }

/-! ## compute_descendant_score (node.py lines 52-59)

The returned `Node` is the state after the call; the source performs only
dict reads here, so the input state is returned unchanged.  The Python
conditional expression evaluates the `len(...) > 0` guard first (a missing
`descendants_contacted` entry raises `KeyError`), then the numerator
(`descendants_replied[node_id]`, raising `KeyError` if missing), then
divides. -/

def compute_descendant_score (node : Node) (block_root : Root) (node_id : NodeId) :
    Except Err (ℚ × Node) :=
  match dget node.dht.scores block_root with
  | none => .error .keyError
  | some score_keeper =>
    match dget score_keeper.descendants_contacted node_id with
    | none => .error .keyError
    | some contacted =>
      if 0 < contacted.length then
        match dget score_keeper.descendants_replied node_id with
        | none => .error .keyError
        | some replied => .ok ((replied.length : ℚ) / (contacted.length : ℚ), node)
      else .ok (0, node)

/-! ## Claim C1: behaviour of compute_descendant_score -/

/-- Helper: a duplicate-free list contained in another list is no longer
than it. -/
theorem nodup_subset_length_le {α : Type} {l₁ l₂ : List α}
    (hd : l₁.Nodup) (hs : l₁ ⊆ l₂) : l₁.length ≤ l₂.length :=
  (List.subperm_of_subset hd hs).length_le

/-- C1, amended: for a content root with a ScoreKeeper, compute_descendant_score
returns replied/contacted (a value in `[0,1]` when the replied set is contained
in the contacted set) whenever the node id has a nonempty contacted entry and a
replied entry; it returns 0 when the node id's contacted entry is present and
empty; and it fails with KeyError — rather than returning 0 — when the node id
is absent from the contacted map, or has a nonempty contacted entry but no
replied entry. -/
theorem C1_descendant_score_amended
    (node : Node) (root : Root) (node_id : NodeId) (sk : ScoreKeeper)
    (hsk : dget node.dht.scores root = some sk) :
    (∀ cl, dget sk.descendants_contacted node_id = some cl → cl ≠ [] →
      (∀ rl, dget sk.descendants_replied node_id = some rl →
        compute_descendant_score node root node_id =
          .ok ((rl.length : ℚ) / (cl.length : ℚ), node) ∧
        (rl.Nodup → rl ⊆ cl →
          0 ≤ (rl.length : ℚ) / (cl.length : ℚ) ∧
          (rl.length : ℚ) / (cl.length : ℚ) ≤ 1)) ∧
      (dget sk.descendants_replied node_id = none →
        compute_descendant_score node root node_id = .error .keyError)) ∧
    (dget sk.descendants_contacted node_id = some [] →
      compute_descendant_score node root node_id = .ok (0, node)) ∧
    (dget sk.descendants_contacted node_id = none →
      compute_descendant_score node root node_id = .error .keyError) := by
  refine ⟨fun cl hcl hne => ⟨fun rl hrl => ⟨?_, fun hd hs => ⟨?_, ?_⟩⟩, fun hrl => ?_⟩,
    fun hcl => ?_, fun hcl => ?_⟩
  · have hlen : 0 < cl.length := List.length_pos.mpr hne
    simp [compute_descendant_score, hsk, hcl, hrl, hlen]
  · positivity
  · have hlen : 0 < cl.length := List.length_pos.mpr hne
    have hle : rl.length ≤ cl.length := nodup_subset_length_le hd hs
    rw [div_le_one (by exact_mod_cast hlen)]
    exact_mod_cast hle
  · have hlen : 0 < cl.length := List.length_pos.mpr hne
    simp [compute_descendant_score, hsk, hcl, hrl, hlen]
  · simp [compute_descendant_score, hsk, hcl]
  · simp [compute_descendant_score, hsk, hcl]

/-- Concrete state refuting C1 as stated: the scores map has a ScoreKeeper for
root 0, but node id 1 has no entry in its (empty) contacted map. -/
def exC1 : Node :=
  { own_id := 0
    dht := { sample_mapping := []
             nodes := [(0, ⟨0, [1], []⟩), (1, ⟨1, [], [0]⟩)]
             scores := [(0, ⟨[], []⟩)] } }

/-- C1, counterexample: on `exC1` (root 0 has a ScoreKeeper, node id 1 is
absent from its contacted map) compute_descendant_score raises KeyError
instead of returning 0 as the claim states. -/
theorem C1_counterexample :
    compute_descendant_score exC1 0 1 = .error .keyError ∧
    compute_descendant_score exC1 0 1 ≠ .ok ((0 : ℚ), exC1) := by
  have h1 : compute_descendant_score exC1 0 1 = .error .keyError := rfl
  refine ⟨h1, ?_⟩
  rw [h1]
  intro h
  exact Except.noConfusion h

/-- C1, witness: the amended theorem applied to a concrete state in which node
1 has one contacted pair and one replied pair, yielding score 1. -/
theorem C1_witness :
    compute_descendant_score
      ⟨0, ⟨[], [(0, ⟨0, [1], []⟩)], [(7, ⟨[(1, [(2, 5)])], [(1, [(2, 5)])]⟩)]⟩⟩ 7 1 =
      .ok ((1 : ℚ) / (1 : ℚ),
        ⟨0, ⟨[], [(0, ⟨0, [1], []⟩)], [(7, ⟨[(1, [(2, 5)])], [(1, [(2, 5)])]⟩)]⟩⟩) := by
  have h := ((C1_descendant_score_amended
    ⟨0, ⟨[], [(0, ⟨0, [1], []⟩)], [(7, ⟨[(1, [(2, 5)])], [(1, [(2, 5)])]⟩)]⟩⟩ 7 1
    ⟨[(1, [(2, 5)])], [(1, [(2, 5)])]⟩ rfl).1 [(2, 5)] rfl (by simp)).1 [(2, 5)] rfl
  simpa using h.1

/-! ## compute_node_score (node.py lines 81-108)

The while loop traverses frontiers of ancestors (`cur_path_scores`, a dict in
insertion order, as Python dicts are).  For each frontier entry and each of its
parents: reaching `own_id` records the carried score into `best_score`;
otherwise the parent's own descendant score is entered into the next frontier
if larger than what is already there.  The loop need not terminate on cyclic
graphs, so it carries fuel counting while-loop rounds. -/

/-- Inner `for parent in self.dht.nodes[node].parents` loop of
compute_node_score (node.py lines 95-104). -/
def ns_parents (node : Node) (block_root : Root) :
    List NodeId → ℚ → Dict NodeId ℚ → ℚ → Except Err (Dict NodeId ℚ × ℚ)
  | [], _, new, best => .ok (new, best)
  | parent :: rest, score, new, best =>
    if parent = node.own_id then
      ns_parents node block_root rest score new (max best score)
    else
      match compute_descendant_score node block_root parent with
      | .error e => .error e
      | .ok (par_score, _) =>
        let new' :=
          match dget new parent with
          | none => dset new parent par_score
          | some cur => if cur < par_score then dset new parent par_score else new
        ns_parents node block_root rest score new' best

/-- Middle `for node, score in cur_path_scores.items()` loop of
compute_node_score (node.py lines 94-104). -/
def ns_round (node : Node) (block_root : Root) :
    List (NodeId × ℚ) → Dict NodeId ℚ → ℚ → Except Err (Dict NodeId ℚ × ℚ)
  | [], new, best => .ok (new, best)
  | (x, score) :: rest, new, best =>
    match dget node.dht.nodes x with
    | none => .error .keyError
    | some recd =>
      match ns_parents node block_root recd.parents score new best with
      | .error e => .error e
      | .ok (new', best') => ns_round node block_root rest new' best'

/-- Outer `while cur_path_scores:` loop of compute_node_score
(node.py lines 92-106). -/
def node_score_loop (node : Node) (block_root : Root) :
    Nat → Dict NodeId ℚ → ℚ → Except Err (ℚ × Node)
  | _, [], best => .ok (best, node)
  | 0, _ :: _, _ => .error .fuelOut
  | fuel + 1, x :: xs, best =>
    match ns_round node block_root (x :: xs) [] best with
    | .error e => .error e
    | .ok (new, best') => node_score_loop node block_root fuel new best'

theorem node_score_loop_nil (node : Node) (root : Root) (fuel : Nat) (best : ℚ) :
    node_score_loop node root fuel [] best = .ok (best, node) := by
  cases fuel <;> rfl

theorem node_score_loop_zero (node : Node) (root : Root) (x : NodeId × ℚ)
    (xs : Dict NodeId ℚ) (best : ℚ) :
    node_score_loop node root 0 (x :: xs) best = .error .fuelOut := rfl

theorem node_score_loop_cons (node : Node) (root : Root) (fuel : Nat)
    (x : NodeId × ℚ) (xs : Dict NodeId ℚ) (best : ℚ) :
    node_score_loop node root (fuel + 1) (x :: xs) best =
      match ns_round node root (x :: xs) [] best with
      | .error e => .error e
      | .ok (new, best') => node_score_loop node root fuel new best' := rfl

/-- compute_node_score (node.py lines 81-108), state threaded; the source
performs only reads, so the input state is returned unchanged. -/
def compute_node_score (node : Node) (fuel : Nat) (block_root : Root)
    (node_id : NodeId) : Except Err (ℚ × Node) :=
  match compute_descendant_score node block_root node_id with
  | .error e => .error e
  | .ok (score, _) =>
    match dget node.dht.nodes node_id with
    | none => .error .keyError
    | some recd =>
      let cur := recd.parents.foldl (fun d p => dset d p score) []
      node_score_loop node block_root fuel cur 0

/-! ## Claim C2: node score of a direct peer -/

/-- Concrete state refuting C2: own id 0, node 1 a direct peer
(`parents = [0]`), descendant score of node 1 equal to 1. -/
def exC2 : Node :=
  { own_id := 0
    dht := { sample_mapping := []
             nodes := [(0, ⟨0, [1], []⟩), (1, ⟨1, [], [0]⟩)]
             scores := [(3, ⟨[(1, [(2, 5)])], [(1, [(2, 5)])]⟩)] } }

/-- C2, counterexample: on `exC2` node 1 is a direct peer of the local node
(its parents are exactly `[0]`, the local node's own id), its descendant score
is 1, yet compute_node_score returns 0: the loop records a score only when it
meets `own_id` as a parent of a frontier entry, and the frontier entry `own_id`
itself has no parents, so the carried score is dropped. -/
theorem C2_counterexample :
    compute_node_score exC2 2 3 1 = .ok ((0 : ℚ), exC2) ∧
    compute_descendant_score exC2 3 1 = .ok ((1 : ℚ), exC2) ∧
    (0 : ℚ) ≠ (1 : ℚ) := by
  refine ⟨?_, ?_, by norm_num⟩
  · simp [compute_node_score, compute_descendant_score, node_score_loop, ns_round,
      ns_parents, dget, dset, exC2, List.foldl, List.isEmpty]
  · simp [compute_descendant_score, dget, exC2]

/-- C2, amended: for a node whose only parent is the local node's own id, and
when the local node's record has no parents, compute_node_score returns 0
whatever the node's descendant score is: the direct parent edge to the local
node contributes nothing, because the loop only credits the carried score when
`own_id` occurs as a parent of a frontier entry. -/
theorem C2_node_score_amended
    (node : Node) (root : Root) (node_id : NodeId) (recN recO : NodeRecord)
    (v : ℚ) (node' : Node)
    (hds : compute_descendant_score node root node_id = .ok (v, node'))
    (hn : dget node.dht.nodes node_id = some recN)
    (hp : recN.parents = [node.own_id])
    (hown : dget node.dht.nodes node.own_id = some recO)
    (hop : recO.parents = []) :
    ∀ fuel, compute_node_score node (fuel + 1) root node_id = .ok (0, node) := by
  intro fuel
  unfold compute_node_score
  rw [hds]
  dsimp only
  rw [hn]
  dsimp only
  rw [hp]
  have hcur : List.foldl (fun d p => dset d p v) ([] : Dict NodeId ℚ) [node.own_id] =
      [(node.own_id, v)] := rfl
  rw [hcur]
  have hr : ns_round node root [(node.own_id, v)] [] 0 = .ok ([], 0) := by
    unfold ns_round
    rw [hown]
    dsimp only
    rw [hop]
    rfl
  rw [node_score_loop_cons, hr]
  exact node_score_loop_nil node root fuel 0

/-- C2, witness: the amended theorem applied to `exC2` with fuel 1. -/
theorem C2_witness : compute_node_score exC2 (0 + 1) 3 1 = .ok (0, exC2) :=
  C2_node_score_amended exC2 3 1 ⟨1, [], [0]⟩ ⟨0, [1], []⟩ 1 exC2
    (by simp [compute_descendant_score, dget, exC2]) rfl rfl rfl rfl 0

/-! ## on_get_peers_response (node.py lines 61-79)

The first loop registers every listed peer as a child of `node_id` (creating a
record when missing) by appending to both sides.  The second loop is Python's
`for child_id in lst: ... lst.remove(child_id)` over the live children list of
`node_id`: iteration is by an index that advances every step even when the
current element has just been removed, so the element following each removal is
skipped.  The iterator holds the list object obtained at loop entry, so the
walk continues over `lst` even if `node_id`'s record is deleted mid-loop; the
next removal attempt then raises KeyError.  `steps` bounds the number of
iterations; `lst.length - i` strictly decreases, so passing `lst.length`
initial steps makes the bound unreachable.  A call returns the final state
together with the Python exception, if one was raised (state mutations made
before the exception persist, as they do in the source). -/

def withNodes (node : Node) (d : Dict NodeId NodeRecord) : Node :=
  { node with dht := { node.dht with nodes := d } }

/-- First `for peer_id in peers` loop (node.py lines 62-70). -/
def peers_loop : Node → NodeId → List NodeId → Node × Option Err
  | node, _, [] => (node, none)
  | node, node_id, peer_id :: rest =>
    let n1 : Node :=
      if (dget node.dht.nodes peer_id).isSome then node
      else withNodes node (dset node.dht.nodes peer_id ⟨peer_id, [], []⟩)
    match dget n1.dht.nodes peer_id with
    | none => (n1, some .keyError)
    | some recP =>
      let n2 := withNodes n1
        (dset n1.dht.nodes peer_id { recP with parents := recP.parents ++ [node_id] })
      match dget n2.dht.nodes node_id with
      | none => (n2, some .keyError)
      | some recN =>
        let n3 := withNodes n2
          (dset n2.dht.nodes node_id { recN with children := recN.children ++ [peer_id] })
        peers_loop n3 node_id rest

/-- Second `for child_id in self.dht.nodes[node_id].children` loop
(node.py lines 72-79), with Python list-iterator semantics (index `i` over the
live list `lst`, `remove` deleting the first occurrence). -/
def children_loop : Nat → Node → NodeId → List NodeId → List NodeId → Nat → Node × Option Err
  | 0, node, _, _, _, _ => (node, none)
  | steps + 1, node, node_id, peers, lst, i =>
    if h : i < lst.length then
      let c := lst.get ⟨i, h⟩
      if c ∈ peers then children_loop steps node node_id peers lst (i + 1)
      else
        match dget node.dht.nodes node_id with
        | none => (node, some .keyError)
        | some recN =>
          let lst' := lst.erase c
          let n1 := withNodes node
            (dset node.dht.nodes node_id { recN with children := recN.children.erase c })
          match dget n1.dht.nodes c with
          | none => (n1, some .keyError)
          | some recC =>
            if node_id ∈ recC.parents then
              let ps := recC.parents.erase node_id
              let n2 := withNodes n1 (dset n1.dht.nodes c { recC with parents := ps })
              let n3 := if ps = [] then withNodes n2 (ddel n2.dht.nodes c) else n2
              children_loop steps n3 node_id peers lst' (i + 1)
            else (n1, some .valueError)
    else (node, none)

/-- on_get_peers_response (node.py lines 61-79). -/
def on_get_peers_response (node : Node) (node_id : NodeId) (peers : List NodeId) :
    Node × Option Err :=
  match peers_loop node node_id peers with
  | (n1, some e) => (n1, some e)
  | (n1, none) =>
    match dget n1.dht.nodes node_id with
    | none => (n1, some .keyError)
    | some recN => children_loop recN.children.length n1 node_id peers recN.children 0

/-! ## Link symmetry (claim C6)

The provable half of link symmetry is counted: every occurrence of `B` in
`A`'s children list is matched by an occurrence of `A` in `B`'s parents list.
The other half fails on the source (orphan deletion leaves dangling parents),
see `C6_counterexample`. -/

/-- Number of occurrences of `A` in `B`'s parents list (0 when `B` has no
record). -/
def pcountD (d : Dict NodeId NodeRecord) (B A : NodeId) : Nat :=
  match dget d B with
  | some recB => recB.parents.count A
  | none => 0

/-- Counted child-to-parent backing: each child occurrence is covered by a
parent occurrence.  In particular every listed child has a record. -/
def CBD (d : Dict NodeId NodeRecord) : Prop :=
  ∀ A recA, dget d A = some recA → ∀ B, recA.children.count B ≤ pcountD d B A

def ChildrenBacked (node : Node) : Prop := CBD node.dht.nodes

theorem pcountD_dset (d : Dict NodeId NodeRecord) (k : NodeId) (r : NodeRecord)
    (B A : NodeId) :
    pcountD (dset d k r) B A = if B = k then r.parents.count A else pcountD d B A := by
  unfold pcountD
  rw [dget_dset]
  by_cases h : B = k <;> simp [h]

theorem pcountD_ddel (d : Dict NodeId NodeRecord) (k : NodeId) (B A : NodeId) :
    pcountD (ddel d k) B A = if B = k then 0 else pcountD d B A := by
  unfold pcountD
  rw [dget_ddel]
  by_cases h : B = k <;> simp [h]

theorem pcountD_dset_same_parents {d : Dict NodeId NodeRecord} {k : NodeId}
    {recK : NodeRecord} (r : NodeRecord) (hk : dget d k = some recK)
    (hp : r.parents = recK.parents)
    (B A : NodeId) : pcountD (dset d k r) B A = pcountD d B A := by
  rw [pcountD_dset]
  by_cases h : B = k
  · subst h
    simp [pcountD, hk, hp]
  · simp [h]

/-- Creating a fresh empty record preserves the backing invariant. -/
theorem cbd_create {d : Dict NodeId NodeRecord} {peer : NodeId}
    (hcb : CBD d) (hnone : dget d peer = none) :
    CBD (dset d peer ⟨peer, [], []⟩) := by
  intro A recA hA B
  rw [dget_dset] at hA
  rw [pcountD_dset]
  by_cases hA0 : A = peer
  · rw [if_pos hA0] at hA
    cases hA
    simp
  · rw [if_neg hA0] at hA
    have hb := hcb A recA hA B
    by_cases hB : B = peer
    · subst hB
      rw [if_pos rfl]
      simpa [pcountD, hnone] using hb
    · rw [if_neg hB]
      exact hb

theorem pcountD_eq_of_dget {d : Dict NodeId NodeRecord} {B : NodeId}
    {recB : NodeRecord} (h : dget d B = some recB) (A0 : NodeId) :
    pcountD d B A0 = recB.parents.count A0 := by
  simp [pcountD, h]

/-- Appending a fresh parent/child pair (first loop body of
on_get_peers_response) preserves the backing invariant.  `d` already holds a
record for `peer` (state after the optional creation) and `node_id` is looked
up after the parent append, exactly as the source does. -/
theorem cbd_link {d : Dict NodeId NodeRecord} {node_id peer : NodeId}
    {recP recN : NodeRecord}
    (hcb : CBD d) (hP : dget d peer = some recP)
    (hN : dget (dset d peer { recP with parents := recP.parents ++ [node_id] })
      node_id = some recN) :
    CBD (dset (dset d peer { recP with parents := recP.parents ++ [node_id] })
      node_id { recN with children := recN.children ++ [peer] }) := by
  have hrecN : (node_id = peer ∧ recN = { recP with parents := recP.parents ++ [node_id] })
      ∨ (node_id ≠ peer ∧ dget d node_id = some recN) := by
    rw [dget_dset] at hN
    by_cases h : node_id = peer
    · rw [if_pos h] at hN
      exact Or.inl ⟨h, (Option.some.inj hN).symm⟩
    · rw [if_neg h] at hN
      exact Or.inr ⟨h, hN⟩
  have hG1 : ∀ B A0, pcountD d B A0 ≤
      pcountD (dset (dset d peer { recP with parents := recP.parents ++ [node_id] })
        node_id { recN with children := recN.children ++ [peer] }) B A0 := by
    intro B A0
    rw [pcountD_dset, pcountD_dset]
    by_cases hBn : B = node_id
    · rw [if_pos hBn]
      subst hBn
      rcases hrecN with ⟨hnp, hrec⟩ | ⟨hnp, hrec⟩
    -- here B = node_id; the new parents list is recN.parents
      · rw [pcountD_eq_of_dget (hnp ▸ hP)]
        rw [show ({ recN with children := recN.children ++ [peer] } : NodeRecord).parents
          = recN.parents from rfl, hrec]
        simp [List.count_append]
      · rw [pcountD_eq_of_dget hrec]
    · rw [if_neg hBn]
      by_cases hBp : B = peer
      · rw [if_pos hBp]
        subst hBp
        rw [pcountD_eq_of_dget hP]
        simp [List.count_append]
      · rw [if_neg hBp]
  have hG2 : pcountD d peer node_id + 1 ≤
      pcountD (dset (dset d peer { recP with parents := recP.parents ++ [node_id] })
        node_id { recN with children := recN.children ++ [peer] }) peer node_id := by
    rw [pcountD_dset, pcountD_eq_of_dget hP]
    rcases hrecN with ⟨hnp, hrec⟩ | ⟨hnp, hrec⟩
    · rw [if_pos hnp.symm]
      rw [show ({ recN with children := recN.children ++ [peer] } : NodeRecord).parents
        = recN.parents from rfl, hrec]
      simp [List.count_append]
    · rw [if_neg (fun h => hnp h.symm), pcountD_dset, if_pos rfl]
      simp [List.count_append]
  have hH : ∀ B, recN.children.count B ≤ pcountD d B node_id := by
    intro B
    rcases hrecN with ⟨hnp, hrec⟩ | ⟨hnp, hrec⟩
    · rw [show recN.children = recP.children from by rw [hrec]]
      rw [hnp]
      exact hcb peer recP hP B
    · exact hcb node_id recN hrec B
  intro A recA hA B
  rw [dget_dset] at hA
  by_cases hAn : A = node_id
  · rw [if_pos hAn] at hA
    cases hA
    subst hAn
    rw [show ({ recN with children := recN.children ++ [peer] } : NodeRecord).children
      = recN.children ++ [peer] from rfl]
    by_cases hBp : B = peer
    · subst hBp
      have he : (recN.children ++ [B]).count B = recN.children.count B + 1 := by
        simp
      rw [he]
      have h1 := hH B
      have h2 := hG2
      omega
    · have he : (recN.children ++ [peer]).count B = recN.children.count B := by
        simp [List.count_append]
        simp [List.count_cons, hBp]
      rw [he]
      exact le_trans (hH B) (hG1 B A)
  · rw [if_neg hAn, dget_dset] at hA
    by_cases hAp : A = peer
    · rw [if_pos hAp] at hA
      cases hA
      subst hAp
      rw [show ({ recP with parents := recP.parents ++ [node_id] } : NodeRecord).children
        = recP.children from rfl]
      exact le_trans (hcb A recP hP B) (hG1 B A)
    · rw [if_neg hAp] at hA
      exact le_trans (hcb A recA hA B) (hG1 B A)

/-- Deleting a record that no parents list mentions (counted through
`pcountD`) preserves the backing invariant. -/
theorem cbd_ddel {d : Dict NodeId NodeRecord} {c : NodeId}
    (hcb : CBD d) (hz : ∀ A0, pcountD d c A0 = 0) :
    CBD (ddel d c) := by
  intro A recA hA B
  rw [dget_ddel] at hA
  by_cases hAc : A = c
  · rw [if_pos hAc] at hA
    exact absurd hA (by simp)
  · rw [if_neg hAc] at hA
    rw [pcountD_ddel]
    by_cases hBc : B = c
    · rw [if_pos hBc]
      subst hBc
      have h := hcb A recA hA B
      rw [hz A] at h
      exact h
    · rw [if_neg hBc]
      exact hcb A recA hA B

/-- Unlinking one stale child (second loop body of on_get_peers_response,
before the orphan check) preserves the backing invariant: the child occurrence
is erased from `node_id`'s children and the parent occurrence from `c`'s
parents, `c` being looked up after the children update, exactly as the source
does. -/
theorem cbd_unlink {d : Dict NodeId NodeRecord} {node_id c : NodeId}
    {recN recC : NodeRecord}
    (hcb : CBD d) (hN : dget d node_id = some recN)
    (hC : dget (dset d node_id { recN with children := recN.children.erase c }) c
      = some recC) :
    CBD (dset (dset d node_id { recN with children := recN.children.erase c }) c
      { recC with parents := recC.parents.erase node_id }) := by
  have hrecC : (c = node_id ∧ recC = { recN with children := recN.children.erase c })
      ∨ (c ≠ node_id ∧ dget d c = some recC) := by
    rw [dget_dset] at hC
    by_cases h : c = node_id
    · rw [if_pos h] at hC
      exact Or.inl ⟨h, (Option.some.inj hC).symm⟩
    · rw [if_neg h] at hC
      exact Or.inr ⟨h, hC⟩
  have hK : ∀ A0, pcountD d c A0 = recC.parents.count A0 := by
    intro A0
    rcases hrecC with ⟨hcn, hrec⟩ | ⟨hcn, hrec⟩
    · rw [hcn, pcountD_eq_of_dget hN, hrec]
    · rw [pcountD_eq_of_dget hrec]
  have hCch : (c = node_id ∧ recC.children = recN.children.erase c)
      ∨ (c ≠ node_id ∧ recC.children.count c ≤ recC.parents.count c ∧
          ∀ B, recC.children.count B ≤ pcountD d B c) := by
    rcases hrecC with ⟨hcn, hrec⟩ | ⟨hcn, hrec⟩
    · exact Or.inl ⟨hcn, by rw [hrec]⟩
    · refine Or.inr ⟨hcn, ?_, fun B => hcb c recC hrec B⟩
      have h := hcb c recC hrec c
      rw [hK c] at h
      exact h
  have hpc2 : ∀ B A0, pcountD (dset (dset d node_id
      { recN with children := recN.children.erase c }) c
      { recC with parents := recC.parents.erase node_id }) B A0 =
      if B = c then (recC.parents.erase node_id).count A0 else pcountD d B A0 := by
    intro B A0
    rw [pcountD_dset]
    by_cases hBc : B = c
    · rw [if_pos hBc, if_pos hBc]
    · rw [if_neg hBc, if_neg hBc,
        pcountD_dset_same_parents { recN with children := recN.children.erase c } hN rfl B A0]
  intro A recA hA B
  rw [dget_dset] at hA
  rw [hpc2]
  by_cases hAc : A = c
  · rw [if_pos hAc] at hA
    cases hA
    rw [show ({ recC with parents := recC.parents.erase node_id } : NodeRecord).children
      = recC.children from rfl]
    by_cases hBc : B = c
    · rw [if_pos hBc]
      subst hBc
      rcases hCch with ⟨hcn, hch⟩ | ⟨hcn, h1, _⟩
      · have hp : recC.parents = recN.parents := by
          rcases hrecC with ⟨_, hrec⟩ | ⟨hne, _⟩
          · rw [hrec]
          · exact absurd hcn hne
        have h := hcb node_id recN hN node_id
        rw [pcountD_eq_of_dget hN] at h
        rw [hch, hp, hAc, hcn, List.count_erase_self, List.count_erase_self]
        omega
      · rw [hAc]
        have he : (recC.parents.erase node_id).count B =
            recC.parents.count B := List.count_erase_of_ne hcn _
        rw [he]
        exact h1
    · rw [if_neg hBc]
      rcases hCch with ⟨hcn, hch⟩ | ⟨hcn, _, h2⟩
      · rw [hch, hAc, hcn]
        have h := hcb node_id recN hN B
        rw [show pcountD d B node_id = pcountD d B node_id from rfl]
        exact le_trans ((List.erase_sublist _ _).count_le B) h
      · rw [hAc]
        exact h2 B
  · rw [if_neg hAc, dget_dset] at hA
    by_cases hAn : A = node_id
    · rw [if_pos hAn] at hA
      cases hA
      rw [show ({ recN with children := recN.children.erase c } : NodeRecord).children
        = recN.children.erase c from rfl]
      by_cases hBc : B = c
      · rw [if_pos hBc]
        subst hBc
        rw [List.count_erase_self, hAn]
        have h := hcb node_id recN hN B
        rw [hK node_id] at h
        rw [List.count_erase_self]
        omega
      · rw [if_neg hBc]
        have h := hcb node_id recN hN B
        rw [hAn]
        exact le_trans ((List.erase_sublist _ _).count_le B) h
    · rw [if_neg hAn] at hA
      by_cases hBc : B = c
      · rw [if_pos hBc]
        subst hBc
        have h := hcb A recA hA B
        rw [hK A] at h
        have he : (recC.parents.erase node_id).count A =
            recC.parents.count A := List.count_erase_of_ne hAn _
        rw [he]
        exact h
      · rw [if_neg hBc]
        exact hcb A recA hA B

/-- Appending a parent occurrence alone (error exit of the first loop body)
preserves the backing invariant. -/
theorem cbd_parent_append {d : Dict NodeId NodeRecord} {peer node_id : NodeId}
    {recP : NodeRecord} (hcb : CBD d) (hP : dget d peer = some recP) :
    CBD (dset d peer { recP with parents := recP.parents ++ [node_id] }) := by
  have hmono : ∀ B A0, pcountD d B A0 ≤
      pcountD (dset d peer { recP with parents := recP.parents ++ [node_id] }) B A0 := by
    intro B A0
    rw [pcountD_dset]
    by_cases hBp : B = peer
    · rw [if_pos hBp, hBp, pcountD_eq_of_dget hP]
      simp [List.count_append]
    · rw [if_neg hBp]
  intro A recA hA B
  rw [dget_dset] at hA
  by_cases hAp : A = peer
  · rw [if_pos hAp] at hA
    cases hA
    rw [show ({ recP with parents := recP.parents ++ [node_id] } : NodeRecord).children
      = recP.children from rfl, hAp]
    exact le_trans (hcb peer recP hP B) (hmono B peer)
  · rw [if_neg hAp] at hA
    exact le_trans (hcb A recA hA B) (hmono B A)

/-- Erasing one child occurrence alone (error exit of the second loop body)
preserves the backing invariant. -/
theorem cbd_child_erase {d : Dict NodeId NodeRecord} {node_id c : NodeId}
    {recN : NodeRecord} (hcb : CBD d) (hN : dget d node_id = some recN) :
    CBD (dset d node_id { recN with children := recN.children.erase c }) := by
  intro A recA hA B
  rw [dget_dset] at hA
  rw [pcountD_dset_same_parents { recN with children := recN.children.erase c } hN rfl]
  by_cases hAn : A = node_id
  · rw [if_pos hAn] at hA
    cases hA
    rw [show ({ recN with children := recN.children.erase c } : NodeRecord).children
      = recN.children.erase c from rfl, hAn]
    exact le_trans ((List.erase_sublist _ _).count_le B) (hcb node_id recN hN B)
  · rw [if_neg hAn] at hA
    exact hcb A recA hA B

/-- The first loop of on_get_peers_response preserves the backing invariant,
also on its partially-mutated error states. -/
theorem peers_loop_cb (node_id : NodeId) :
    ∀ (ps : List NodeId) (node : Node), ChildrenBacked node →
      ChildrenBacked (peers_loop node node_id ps).1 := by
  intro ps
  induction ps with
  | nil =>
    intro node h
    exact h
  | cons peer rest ih =>
    intro node hcb
    simp only [peers_loop, withNodes]
    by_cases hpeer : (dget node.dht.nodes peer).isSome
    · simp only [hpeer, if_true]
      rcases Option.isSome_iff_exists.mp hpeer with ⟨recP, hP⟩
      simp only [hP]
      cases hN : dget (dset node.dht.nodes peer
          { recP with parents := recP.parents ++ [node_id] }) node_id with
      | none => exact cbd_parent_append hcb hP
      | some recN => exact ih _ (cbd_link hcb hP hN)
    · simp only [hpeer, Bool.false_eq_true, if_false]
      have hnone : dget node.dht.nodes peer = none := by
        cases hd : dget node.dht.nodes peer
        · rfl
        · rw [hd] at hpeer
          simp at hpeer
      have hcb1 : CBD (dset node.dht.nodes peer ⟨peer, [], []⟩) := cbd_create hcb hnone
      have hP1 : dget (dset node.dht.nodes peer ⟨peer, [], []⟩) peer =
          some ⟨peer, [], []⟩ := by
        rw [dget_dset, if_pos rfl]
      simp only [hP1]
      cases hN : dget (dset (dset node.dht.nodes peer ⟨peer, [], []⟩) peer
          { node_id := peer, children := [],
            parents := ([] : List NodeId) ++ [node_id] }) node_id with
      | none => exact cbd_parent_append hcb1 hP1
      | some recN => exact ih _ (cbd_link hcb1 hP1 hN)

/-- The second loop of on_get_peers_response preserves the backing invariant,
also on its partially-mutated error states. -/
theorem children_loop_cb (node_id : NodeId) (peers : List NodeId) :
    ∀ (steps : Nat) (node : Node) (lst : List NodeId) (i : Nat),
      ChildrenBacked node →
      ChildrenBacked (children_loop steps node node_id peers lst i).1 := by
  intro steps
  induction steps with
  | zero =>
    intro node lst i h
    exact h
  | succ steps ih =>
    intro node lst i hcb
    simp only [children_loop, withNodes]
    by_cases h : i < lst.length
    · rw [dif_pos h]
      by_cases hmem : lst.get ⟨i, h⟩ ∈ peers
      · rw [if_pos hmem]
        exact ih node lst (i + 1) hcb
      · rw [if_neg hmem]
        cases hN : dget node.dht.nodes node_id with
        | none => exact hcb
        | some recN =>
          dsimp only
          cases hC : dget (dset node.dht.nodes node_id
              { recN with children := recN.children.erase (lst.get ⟨i, h⟩) })
              (lst.get ⟨i, h⟩) with
          | none => exact cbd_child_erase (c := lst.get ⟨i, h⟩) hcb hN
          | some recC =>
            dsimp only
            by_cases hpar : node_id ∈ recC.parents
            · rw [if_pos hpar]
              by_cases hps : recC.parents.erase node_id = []
              · rw [if_pos hps]
                refine ih _ _ _ (cbd_ddel (cbd_unlink hcb hN hC) ?_)
                intro A0
                rw [pcountD_dset, if_pos rfl,
                  show ({ recC with parents := recC.parents.erase node_id } :
                    NodeRecord).parents = recC.parents.erase node_id from rfl, hps]
                rfl
              · rw [if_neg hps]
                exact ih _ _ _ (cbd_unlink hcb hN hC)
            · rw [if_neg hpar]
              exact cbd_child_erase hcb hN
    · rw [dif_neg h]
      exact hcb

/-- on_get_peers_response preserves the backing invariant (whether or not the
call raises). -/
theorem on_get_peers_response_cb (node : Node) (node_id : NodeId)
    (peers : List NodeId) (hcb : ChildrenBacked node) :
    ChildrenBacked (on_get_peers_response node node_id peers).1 := by
  unfold on_get_peers_response
  cases hpl : peers_loop node node_id peers with
  | mk n1 err =>
    have hcb1 : ChildrenBacked n1 := by
      have := peers_loop_cb node_id peers node hcb
      rw [hpl] at this
      exact this
    cases err with
    | some e => exact hcb1
    | none =>
      dsimp only
      cases hN : dget n1.dht.nodes node_id with
      | none => exact hcb1
      | some recN =>
        exact children_loop_cb node_id peers recN.children.length n1 recN.children 0 hcb1

/-- States of the peer graph reachable from a freshly constructed node by any
sequence of on_get_peers_response calls (failing calls included: the source
mutates in place before raising). -/
inductive ReachGraph : Node → Prop where
  | init (id : NodeId) : ReachGraph (Node.init id)
  | step (n : Node) (id : NodeId) (ps : List NodeId) :
      ReachGraph n → ReachGraph (on_get_peers_response n id ps).1

theorem reach_cb {node : Node} (h : ReachGraph node) : ChildrenBacked node := by
  induction h with
  | init id =>
    intro A recA hA B
    simp only [Node.init, dget] at hA
    by_cases hid : id = A
    · rw [if_pos hid] at hA
      cases hA
      simp
    · rw [if_neg hid] at hA
      exact absurd hA (by simp)
  | step n id ps _ ih => exact on_get_peers_response_cb n id ps ih

/-! ## Claim C6: theorems -/

/-- The full link symmetry property as claimed: every child link is matched by
a parent link and every parent link by a child link (the linked record
existing in the node map in both directions). -/
def LinkSymmetric (node : Node) : Prop :=
  (∀ A recA, dget node.dht.nodes A = some recA →
    ∀ B, B ∈ recA.children →
      ∃ recB, dget node.dht.nodes B = some recB ∧ A ∈ recB.parents) ∧
  (∀ B recB, dget node.dht.nodes B = some recB →
    ∀ P, P ∈ recB.parents →
      ∃ recP, dget node.dht.nodes P = some recP ∧ B ∈ recP.children)

/-- C6, amended: after any sequence of on_get_peers_response calls starting
from a freshly constructed Node, the child-to-parent half of link symmetry
holds: for every node A in the map and every child B of A, B has a record and
A appears in B's parents list.  The parent-to-child half of the claim fails on
the source: orphan deletion does not unlink the deleted node from its own
children, leaving dangling parent references (C6_counterexample). -/
theorem C6_link_symmetry_amended {node : Node} (h : ReachGraph node) :
    ∀ A recA, dget node.dht.nodes A = some recA →
      ∀ B, B ∈ recA.children →
        ∃ recB, dget node.dht.nodes B = some recB ∧ A ∈ recB.parents := by
  intro A recA hA B hB
  have hcb := reach_cb h A recA hA B
  have hpos : 0 < recA.children.count B := List.count_pos_iff.mpr hB
  cases hd : dget node.dht.nodes B with
  | none =>
    have h0 : pcountD node.dht.nodes B A = 0 := by simp [pcountD, hd]
    rw [h0] at hcb
    omega
  | some recB =>
    rw [pcountD_eq_of_dget hd A] at hcb
    exact ⟨recB, rfl, List.count_pos_iff.mp (by omega)⟩

/-- State reached by the calls (0,[1]); (1,[2]); (0,[]) from a fresh node 0:
the third call orphans node 1 and deletes it, leaving node 2 with a dangling
parent reference to 1. -/
def exC6 : Node :=
  (on_get_peers_response
    (on_get_peers_response
      (on_get_peers_response (Node.init 0) 0 [1]).1 1 [2]).1 0 []).1

/-- C6, counterexample: `exC6` is reachable by on_get_peers_response calls
from a fresh node, yet full link symmetry fails there: node 2 lists node 1 as
a parent, but node 1 has no record at all (so node 2 is not among the children
of any record of 1). -/
theorem C6_counterexample : ¬ LinkSymmetric exC6 := by
  intro hsym
  obtain ⟨recB, hB, _⟩ := hsym.2 2 ⟨2, [], [1]⟩ rfl 1 (by simp)
  rw [show dget exC6.dht.nodes 1 = none from rfl] at hB
  exact Option.noConfusion hB

/-- C6, witness: the amended theorem applied to the state reached by one call
(0,[1]) from a fresh node 0, at the link from node 0 to its child 1. -/
theorem C6_witness :
    ∃ recB, dget (on_get_peers_response (Node.init 0) 0 [1]).1.dht.nodes 1 =
      some recB ∧ 0 ∈ recB.parents :=
  C6_link_symmetry_amended (ReachGraph.step (Node.init 0) 0 [1] (ReachGraph.init 0))
    0 ⟨0, [1], []⟩ rfl 1 (by simp)

/-! ## Claim C7: stale-child removal -/

/-- Records of nodes other than `node_id` and outside the iterated list are
untouched by the second loop of on_get_peers_response. -/
theorem children_loop_keeps_other (node_id : NodeId) (peers : List NodeId)
    (x : NodeId) :
    ∀ (steps : Nat) (n : Node) (lst : List NodeId) (i : Nat),
      x ≠ node_id → x ∉ lst →
      dget (children_loop steps n node_id peers lst i).1.dht.nodes x =
        dget n.dht.nodes x := by
  intro steps
  induction steps with
  | zero =>
    intro n lst i _ _
    rfl
  | succ steps ih =>
    intro n lst i hxn hxl
    simp only [children_loop, withNodes]
    by_cases h : i < lst.length
    · rw [dif_pos h]
      have hcx : lst.get ⟨i, h⟩ ≠ x := fun hc => hxl (hc ▸ lst.get_mem i h)
      by_cases hmem : lst.get ⟨i, h⟩ ∈ peers
      · rw [if_pos hmem]
        exact ih n lst (i + 1) hxn hxl
      · rw [if_neg hmem]
        cases hN : dget n.dht.nodes node_id with
        | none => rfl
        | some recN =>
          dsimp only
          cases hC : dget (dset n.dht.nodes node_id
              { recN with children := recN.children.erase (lst.get ⟨i, h⟩) })
              (lst.get ⟨i, h⟩) with
          | none =>
            dsimp only
            rw [dget_dset, if_neg (fun hh : x = node_id => hxn hh)]
          | some recC =>
            dsimp only
            by_cases hpar : node_id ∈ recC.parents
            · rw [if_pos hpar]
              have hxl' : x ∉ lst.erase (lst.get ⟨i, h⟩) :=
                fun hc => hxl (List.mem_of_mem_erase hc)
              rw [ih _ (lst.erase (lst.get ⟨i, h⟩)) (i + 1) hxn hxl']
              by_cases hps : recC.parents.erase node_id = []
              · rw [if_pos hps]
                dsimp only
                rw [dget_ddel, if_neg (fun hh : x = lst.get ⟨i, h⟩ => hcx hh.symm),
                  dget_dset, if_neg (fun hh : x = lst.get ⟨i, h⟩ => hcx hh.symm),
                  dget_dset, if_neg (fun hh : x = node_id => hxn hh)]
              · rw [if_neg hps]
                dsimp only
                rw [dget_dset, if_neg (fun hh : x = lst.get ⟨i, h⟩ => hcx hh.symm),
                  dget_dset, if_neg (fun hh : x = node_id => hxn hh)]
            · rw [if_neg hpar]
              dsimp only
              rw [dget_dset, if_neg (fun hh : x = node_id => hxn hh)]
    · rw [dif_neg h]

/-- The record of `node_id` survives the second loop when `node_id` is not in
the iterated list; its children only shrink and its parents are unchanged. -/
theorem children_loop_keeps_nodeid (node_id : NodeId) (peers : List NodeId) :
    ∀ (steps : Nat) (n : Node) (lst : List NodeId) (i : Nat) (recN0 : NodeRecord),
      node_id ∉ lst →
      dget n.dht.nodes node_id = some recN0 →
      ∃ rec', dget (children_loop steps n node_id peers lst i).1.dht.nodes node_id
          = some rec' ∧ rec'.children.Sublist recN0.children ∧
          rec'.parents = recN0.parents := by
  intro steps
  induction steps with
  | zero =>
    intro n lst i recN0 _ hN
    exact ⟨recN0, hN, List.Sublist.refl _, rfl⟩
  | succ steps ih =>
    intro n lst i recN0 hnl hN
    simp only [children_loop, withNodes]
    by_cases h : i < lst.length
    · rw [dif_pos h]
      have hcn : lst.get ⟨i, h⟩ ≠ node_id := fun hc => hnl (hc ▸ lst.get_mem i h)
      by_cases hmem : lst.get ⟨i, h⟩ ∈ peers
      · rw [if_pos hmem]
        exact ih n lst (i + 1) recN0 hnl hN
      · rw [if_neg hmem]
        simp only [hN]
        have hN1 : dget (dset n.dht.nodes node_id
            { recN0 with children := recN0.children.erase (lst.get ⟨i, h⟩) }) node_id =
            some { recN0 with children := recN0.children.erase (lst.get ⟨i, h⟩) } := by
          rw [dget_dset, if_pos rfl]
        cases hC : dget (dset n.dht.nodes node_id
            { recN0 with children := recN0.children.erase (lst.get ⟨i, h⟩) })
            (lst.get ⟨i, h⟩) with
        | none =>
          dsimp only
          exact ⟨_, hN1, List.erase_sublist _ _, rfl⟩
        | some recC =>
          dsimp only
          by_cases hpar : node_id ∈ recC.parents
          · rw [if_pos hpar]
            have hnl' : node_id ∉ lst.erase (lst.get ⟨i, h⟩) :=
              fun hc => hnl (List.mem_of_mem_erase hc)
            have hN3 : ∀ n3 : Node,
                dget n3.dht.nodes node_id =
                  some { recN0 with children := recN0.children.erase (lst.get ⟨i, h⟩) } →
                ∃ rec', dget (children_loop steps n3 node_id peers
                    (lst.erase (lst.get ⟨i, h⟩)) (i + 1)).1.dht.nodes node_id
                  = some rec' ∧ rec'.children.Sublist recN0.children ∧
                  rec'.parents = recN0.parents := by
              intro n3 hg
              obtain ⟨rec', hr, hsub, hpar'⟩ := ih n3 (lst.erase (lst.get ⟨i, h⟩))
                (i + 1) _ hnl' hg
              exact ⟨rec', hr, hsub.trans (List.erase_sublist _ _), hpar'⟩
            by_cases hps : recC.parents.erase node_id = []
            · rw [if_pos hps]
              refine hN3 _ ?_
              dsimp only
              rw [dget_ddel, if_neg (fun hh : node_id = lst.get ⟨i, h⟩ => hcn hh.symm),
                dget_dset, if_neg (fun hh : node_id = lst.get ⟨i, h⟩ => hcn hh.symm),
                dget_dset, if_pos rfl]
            · rw [if_neg hps]
              refine hN3 _ ?_
              dsimp only
              rw [dget_dset, if_neg (fun hh : node_id = lst.get ⟨i, h⟩ => hcn hh.symm),
                dget_dset, if_pos rfl]
          · rw [if_neg hpar]
            dsimp only
            exact ⟨_, hN1, List.erase_sublist _ _, rfl⟩
    · rw [dif_neg h]
      exact ⟨recN0, hN, List.Sublist.refl _, rfl⟩

/-- One iteration of the second loop on a stale head child: unlink both sides
and delete the orphaned record, then continue at index 1 over the shrunken
live list (the element now at index 0 is skipped). -/
theorem children_loop_stale_head (steps : Nat) (node : Node) (node_id : NodeId)
    (peers : List NodeId) (c : NodeId) (rest : List NodeId) (recN recC : NodeRecord)
    (hcp : c ∉ peers) (hN : dget node.dht.nodes node_id = some recN)
    (hcn : c ≠ node_id)
    (hC : dget node.dht.nodes c = some recC)
    (hpar : node_id ∈ recC.parents) :
    children_loop (steps + 1) node node_id peers (c :: rest) 0 =
      children_loop steps
        (withNodes node
          (if recC.parents.erase node_id = [] then
            ddel (dset (dset node.dht.nodes node_id
                { recN with children := recN.children.erase c }) c
              { recC with parents := recC.parents.erase node_id }) c
          else
            dset (dset node.dht.nodes node_id
                { recN with children := recN.children.erase c }) c
              { recC with parents := recC.parents.erase node_id }))
        node_id peers rest 1 := by
  simp only [children_loop, withNodes]
  rw [dif_pos (by simp : (0 : Nat) < (c :: rest).length)]
  simp only [List.get]
  rw [if_neg hcp]
  simp only [hN]
  have hgetc : dget (dset node.dht.nodes node_id
      { recN with children := recN.children.erase c }) c = some recC := by
    rw [dget_dset, if_neg hcn]
    exact hC
  simp only [hgetc]
  rw [if_pos hpar, List.erase_cons_head]
  by_cases hps : recC.parents.erase node_id = []
  · rw [if_pos hps, if_pos hps]
  · rw [if_neg hps, if_neg hps]

/-- C7, amended: the second loop's iterate-while-remove skips the element
following each removal, so only the first stale child is reliably processed
(see C7_counterexample: with two stale children the second keeps its edge).
For a pure unlink call (`peers = []`): the first child `c` of `node_id`
(occurring once among the children, `node_id` not among its own children,
`node_id` recorded as a parent of `c`) has its parent/child edge with
`node_id` removed, and when this leaves `c` with zero parents the record of
`c` is deleted from the node map — the local node's own id enjoying no
exemption (C7_witness deletes the local node's own record). -/
theorem C7_unlink_amended
    (node : Node) (node_id c : NodeId) (recN recC : NodeRecord) (rest : List NodeId)
    (hN : dget node.dht.nodes node_id = some recN)
    (hch : recN.children = c :: rest)
    (hcr : c ∉ rest)
    (hnl : node_id ∉ recN.children)
    (hC : dget node.dht.nodes c = some recC)
    (hpar : node_id ∈ recC.parents) :
    (∃ recN', dget (on_get_peers_response node node_id []).1.dht.nodes node_id =
        some recN' ∧ c ∉ recN'.children) ∧
    (recC.parents.erase node_id = [] →
      dget (on_get_peers_response node node_id []).1.dht.nodes c = none) ∧
    (recC.parents.erase node_id ≠ [] →
      dget (on_get_peers_response node node_id []).1.dht.nodes c =
        some { recC with parents := recC.parents.erase node_id }) := by
  have hcmem : c ∈ recN.children := by
    rw [hch]
    exact List.mem_cons_self c rest
  have hcn : c ≠ node_id := fun hh => hnl (hh ▸ hcmem)
  have hrest_nl : node_id ∉ rest := by
    intro hh
    exact hnl (by rw [hch]; exact List.mem_cons_of_mem _ hh)
  have herase : recN.children.erase c = rest := by
    rw [hch, List.erase_cons_head]
  have hrun : on_get_peers_response node node_id [] =
      children_loop rest.length
        (withNodes node
          (if recC.parents.erase node_id = [] then
            ddel (dset (dset node.dht.nodes node_id
                { recN with children := recN.children.erase c }) c
              { recC with parents := recC.parents.erase node_id }) c
          else
            dset (dset node.dht.nodes node_id
                { recN with children := recN.children.erase c }) c
              { recC with parents := recC.parents.erase node_id }))
        node_id [] rest 1 := by
    unfold on_get_peers_response
    simp only [peers_loop]
    simp only [hN]
    rw [hch, List.length_cons]
    have hs := children_loop_stale_head rest.length node node_id [] c rest recN recC
      (List.not_mem_nil c) hN hcn hC hpar
    rw [hch] at hs
    exact hs
  have hn3N : dget (withNodes node
      (if recC.parents.erase node_id = [] then
        ddel (dset (dset node.dht.nodes node_id
            { recN with children := recN.children.erase c }) c
          { recC with parents := recC.parents.erase node_id }) c
      else
        dset (dset node.dht.nodes node_id
            { recN with children := recN.children.erase c }) c
          { recC with parents := recC.parents.erase node_id })).dht.nodes node_id =
      some { recN with children := recN.children.erase c } := by
    by_cases hps : recC.parents.erase node_id = []
    · rw [show (withNodes node (if recC.parents.erase node_id = [] then
          ddel (dset (dset node.dht.nodes node_id
              { recN with children := recN.children.erase c }) c
            { recC with parents := recC.parents.erase node_id }) c
        else
          dset (dset node.dht.nodes node_id
              { recN with children := recN.children.erase c }) c
            { recC with parents := recC.parents.erase node_id })).dht.nodes =
          (if recC.parents.erase node_id = [] then
            ddel (dset (dset node.dht.nodes node_id
                { recN with children := recN.children.erase c }) c
              { recC with parents := recC.parents.erase node_id }) c
          else
            dset (dset node.dht.nodes node_id
                { recN with children := recN.children.erase c }) c
              { recC with parents := recC.parents.erase node_id }) from rfl,
        if_pos hps, dget_ddel, if_neg (fun hh : node_id = c => hcn hh.symm),
        dget_dset, if_neg (fun hh : node_id = c => hcn hh.symm),
        dget_dset, if_pos rfl]
    · rw [show (withNodes node (if recC.parents.erase node_id = [] then
          ddel (dset (dset node.dht.nodes node_id
              { recN with children := recN.children.erase c }) c
            { recC with parents := recC.parents.erase node_id }) c
        else
          dset (dset node.dht.nodes node_id
              { recN with children := recN.children.erase c }) c
            { recC with parents := recC.parents.erase node_id })).dht.nodes =
          (if recC.parents.erase node_id = [] then
            ddel (dset (dset node.dht.nodes node_id
                { recN with children := recN.children.erase c }) c
              { recC with parents := recC.parents.erase node_id }) c
          else
            dset (dset node.dht.nodes node_id
                { recN with children := recN.children.erase c }) c
              { recC with parents := recC.parents.erase node_id }) from rfl,
        if_neg hps, dget_dset, if_neg (fun hh : node_id = c => hcn hh.symm),
        dget_dset, if_pos rfl]
  refine ⟨?_, ?_, ?_⟩
  · obtain ⟨rec', hr, hsub, _⟩ := children_loop_keeps_nodeid node_id []
      rest.length _ rest 1 { recN with children := recN.children.erase c }
      hrest_nl hn3N
    refine ⟨rec', by rw [hrun]; exact hr, ?_⟩
    intro hmem'
    have hsubc : c ∈ ({ recN with children := recN.children.erase c} :
        NodeRecord).children := hsub.subset hmem'
    rw [show ({ recN with children := recN.children.erase c} :
        NodeRecord).children = recN.children.erase c from rfl, herase] at hsubc
    exact hcr hsubc
  · intro hps
    rw [hrun, children_loop_keeps_other node_id [] c rest.length _ rest 1 hcn hcr]
    rw [show (withNodes node (if recC.parents.erase node_id = [] then
        ddel (dset (dset node.dht.nodes node_id
            { recN with children := recN.children.erase c }) c
          { recC with parents := recC.parents.erase node_id }) c
      else
        dset (dset node.dht.nodes node_id
            { recN with children := recN.children.erase c }) c
          { recC with parents := recC.parents.erase node_id })).dht.nodes =
        (if recC.parents.erase node_id = [] then
          ddel (dset (dset node.dht.nodes node_id
              { recN with children := recN.children.erase c }) c
            { recC with parents := recC.parents.erase node_id }) c
        else
          dset (dset node.dht.nodes node_id
              { recN with children := recN.children.erase c }) c
            { recC with parents := recC.parents.erase node_id }) from rfl,
      if_pos hps, dget_ddel, if_pos rfl]
  · intro hps
    rw [hrun, children_loop_keeps_other node_id [] c rest.length _ rest 1 hcn hcr]
    rw [show (withNodes node (if recC.parents.erase node_id = [] then
        ddel (dset (dset node.dht.nodes node_id
            { recN with children := recN.children.erase c }) c
          { recC with parents := recC.parents.erase node_id }) c
      else
        dset (dset node.dht.nodes node_id
            { recN with children := recN.children.erase c }) c
          { recC with parents := recC.parents.erase node_id })).dht.nodes =
        (if recC.parents.erase node_id = [] then
          ddel (dset (dset node.dht.nodes node_id
              { recN with children := recN.children.erase c }) c
            { recC with parents := recC.parents.erase node_id }) c
        else
          dset (dset node.dht.nodes node_id
              { recN with children := recN.children.erase c }) c
            { recC with parents := recC.parents.erase node_id }) from rfl,
      if_neg hps, dget_dset, if_pos rfl]

/-- The claim C7 as stated, for one call: every previously-linked child absent
from peers is unlinked on both sides after the call. -/
def C7Claim (node : Node) (node_id : NodeId) (peers : List NodeId) : Prop :=
  ∀ recN, dget node.dht.nodes node_id = some recN →
    ∀ c, c ∈ recN.children → c ∉ peers →
      (∀ recN', dget (on_get_peers_response node node_id peers).1.dht.nodes node_id =
        some recN' → c ∉ recN'.children) ∧
      (∀ recC', dget (on_get_peers_response node node_id peers).1.dht.nodes c =
        some recC' → node_id ∉ recC'.parents)

/-- State with two children 1, 2 of node 0, reached by the call (0,[1,2]) from
a fresh node 0. -/
def exC7 : Node := (on_get_peers_response (Node.init 0) 0 [1, 2]).1

/-- C7, counterexample: calling on_get_peers_response(0, []) on `exC7` removes
child 1 but skips child 2 (the loop index advances past the removal), so the
stale child 2 keeps its parent/child edge with node 0, contradicting the
claim. -/
theorem C7_counterexample : ¬ C7Claim exC7 0 [] := by
  intro h
  have h2 := (h ⟨0, [1, 2], []⟩ rfl 2 (by simp) (by simp)).2 ⟨2, [], [0]⟩ rfl
  simp at h2

/-- State in which the local node 0 is the sole child of node 1, reached by
the calls (0,[1]); (1,[0]) from a fresh node 0. -/
def exC7own : Node :=
  (on_get_peers_response (on_get_peers_response (Node.init 0) 0 [1]).1 1 [0]).1

/-- C7, witness: the amended theorem applied to `exC7own` with the call
(1, []): the local node's own record (node 0) is orphaned and deleted — the
own id is not exempt from removal. -/
theorem C7_witness : dget (on_get_peers_response exC7own 1 []).1.dht.nodes 0 = none :=
  (C7_unlink_amended exC7own 1 0 ⟨1, [0], [0]⟩ ⟨0, [1], [1]⟩ []
    rfl rfl (by simp) (by simp) rfl (by simp)).2.1 (by simp)

/-! ## on_request_score_update / on_response_score_update
(node.py lines 111-131 and 134-150)

Both functions walk the ancestor closure of `node_id` with a breadth-first
frontier (`cur_ancestors`, a Python set, modelled as a deduplicated list in
insertion order) and add `(node_id, sample_id)` to each reached ancestor's
entry — in `descendants_contacted` for requests, `descendants_replied` for
replies.  The `while cur_ancestors:` loops carry fuel counting rounds; the
source comments both loops with `FIXME: the iteration is endless` (they do not
terminate on cyclic graphs).  Mutations persist on error, as the source
mutates the shared ScoreKeeper in place. -/

/-- Python `if ancestor not in D: D[ancestor] = set()` then `D[ancestor].add(pair)`. -/
def addPair (d : Dict NodeId (List (NodeId × SampleId))) (a : NodeId)
    (pair : NodeId × SampleId) : Dict NodeId (List (NodeId × SampleId)) :=
  dset d a (setAdd ((dget d a).getD []) pair)

/-- Round body: `for ancestor in cur_ancestors`, applying `upd` for each
ancestor and collecting its parents into the next frontier.  Mutations made
before a KeyError persist. -/
def walk_round (upd : ScoreKeeper → NodeId → ScoreKeeper)
    (nodes : Dict NodeId NodeRecord) :
    List NodeId → ScoreKeeper → List NodeId →
      ScoreKeeper × List NodeId × Option Err
  | [], sk, acc => (sk, acc, none)
  | a :: rest, sk, acc =>
    match dget nodes a with
    | none => (upd sk a, acc, some .keyError)
    | some recd => walk_round upd nodes rest (upd sk a) (setUnion acc recd.parents)

/-- The `while cur_ancestors:` loop, with fuel counting rounds. -/
def walk (upd : ScoreKeeper → NodeId → ScoreKeeper)
    (nodes : Dict NodeId NodeRecord) :
    Nat → List NodeId → ScoreKeeper → ScoreKeeper × Option Err
  | _, [], sk => (sk, none)
  | 0, _ :: _, sk => (sk, some .fuelOut)
  | fuel + 1, a :: rest, sk =>
    match walk_round upd nodes (a :: rest) sk [] with
    | (sk', _, some e) => (sk', some e)
    | (sk', acc, none) => walk upd nodes fuel acc sk'

/-- The per-ancestor update of on_request_score_update (node.py lines 126-129). -/
def updContact (node_id : NodeId) (sample_id : SampleId)
    (sk : ScoreKeeper) (a : NodeId) : ScoreKeeper :=
  { sk with descendants_contacted :=
      addPair sk.descendants_contacted a (node_id, sample_id) }

/-- The per-ancestor update of on_response_score_update (node.py lines 145-148). -/
def updReply (node_id : NodeId) (sample_id : SampleId)
    (sk : ScoreKeeper) (a : NodeId) : ScoreKeeper :=
  { sk with descendants_replied :=
      addPair sk.descendants_replied a (node_id, sample_id) }

/-- on_request_score_update (node.py lines 111-131). -/
def on_request_score_update (node : Node) (fuel : Nat) (block_root : Root)
    (node_id : NodeId) (sample_id : SampleId) : Node × Option Err :=
  match dget node.dht.nodes node_id with
  | none => (node, some .keyError)
  | some node_record =>
    let node1 : Node :=
      if (dget node.dht.scores block_root).isSome then node
      else { node with dht := { node.dht with
        scores := dset node.dht.scores block_root ⟨[], []⟩ } }
    match dget node1.dht.scores block_root with
    | none => (node1, some .keyError)
    | some score_keeper =>
      let res := walk (updContact node_id sample_id) node1.dht.nodes fuel
        (setUnion [] node_record.parents) score_keeper
      ({ node1 with dht := { node1.dht with
          scores := dset node1.dht.scores block_root res.1 } }, res.2)

/-- on_response_score_update (node.py lines 134-150); no ScoreKeeper is
created here: a missing entry for `block_root` raises KeyError before any
mutation. -/
def on_response_score_update (node : Node) (fuel : Nat) (block_root : Root)
    (node_id : NodeId) (sample_id : SampleId) : Node × Option Err :=
  match dget node.dht.nodes node_id with
  | none => (node, some .keyError)
  | some node_record =>
    match dget node.dht.scores block_root with
    | none => (node, some .keyError)
    | some score_keeper =>
      let res := walk (updReply node_id sample_id) node.dht.nodes fuel
        (setUnion [] node_record.parents) score_keeper
      ({ node with dht := { node.dht with
          scores := dset node.dht.scores block_root res.1 } }, res.2)

/-! ## Ancestor relation and views of the two pair maps -/

/-- `StepUp nodes x y`: `y` is a recorded parent of `x`. -/
def StepUp (nodes : Dict NodeId NodeRecord) (x y : NodeId) : Prop :=
  ∃ recd, dget nodes x = some recd ∧ y ∈ recd.parents

/-- Ancestors of `n`: nodes reachable by one or more upward parent steps. -/
def Anc (nodes : Dict NodeId NodeRecord) (n a : NodeId) : Prop :=
  Relation.TransGen (StepUp nodes) n a

/-- Contacted pairs recorded under ancestor `a` (empty when absent). -/
def pairsC (sk : ScoreKeeper) (a : NodeId) : List (NodeId × SampleId) :=
  (dget sk.descendants_contacted a).getD []

/-- Replied pairs recorded under ancestor `a` (empty when absent). -/
def pairsR (sk : ScoreKeeper) (a : NodeId) : List (NodeId × SampleId) :=
  (dget sk.descendants_replied a).getD []

theorem pairsC_updContact (node_id : NodeId) (sample_id : SampleId)
    (sk : ScoreKeeper) (a b : NodeId) :
    pairsC (updContact node_id sample_id sk a) b =
      if b = a then setAdd (pairsC sk a) (node_id, sample_id) else pairsC sk b := by
  unfold pairsC updContact addPair
  rw [dget_dset]
  by_cases h : b = a <;> simp [h]

theorem pairsR_updContact (node_id : NodeId) (sample_id : SampleId)
    (sk : ScoreKeeper) (a b : NodeId) :
    pairsR (updContact node_id sample_id sk a) b = pairsR sk b := rfl

theorem pairsR_updReply (node_id : NodeId) (sample_id : SampleId)
    (sk : ScoreKeeper) (a b : NodeId) :
    pairsR (updReply node_id sample_id sk a) b =
      if b = a then setAdd (pairsR sk a) (node_id, sample_id) else pairsR sk b := by
  unfold pairsR updReply addPair
  rw [dget_dset]
  by_cases h : b = a <;> simp [h]

theorem pairsC_updReply (node_id : NodeId) (sample_id : SampleId)
    (sk : ScoreKeeper) (a b : NodeId) :
    pairsC (updReply node_id sample_id sk a) b = pairsC sk b := rfl

/-- Reachability from a frontier: an element of the frontier or an ancestor
of one. -/
def ReachF (nodes : Dict NodeId NodeRecord) (F : List NodeId) (b : NodeId) : Prop :=
  b ∈ F ∨ ∃ f ∈ F, Anc nodes f b

section WalkLemmas

variable {upd : ScoreKeeper → NodeId → ScoreKeeper}
variable {nodes : Dict NodeId NodeRecord}
variable {getv geto : ScoreKeeper → NodeId → List (NodeId × SampleId)}
variable {pair : NodeId × SampleId}

/-- The round leaves the other pair map untouched. -/
theorem walk_round_geto
    (ho : ∀ sk a b, geto (upd sk a) b = geto sk b) :
    ∀ (F : List NodeId) (sk : ScoreKeeper) (acc : List NodeId) (b : NodeId),
      geto (walk_round upd nodes F sk acc).1 b = geto sk b := by
  intro F
  induction F with
  | nil =>
    intro sk acc b
    rfl
  | cons a rest ih =>
    intro sk acc b
    simp only [walk_round]
    cases hd : dget nodes a with
    | none => exact ho sk a b
    | some recd => rw [ih (upd sk a) _ b, ho]

/-- Entries already present survive the round. -/
theorem walk_round_mono
    (hv : ∀ sk a b, getv (upd sk a) b =
      if b = a then setAdd (getv sk a) pair else getv sk b) :
    ∀ (F : List NodeId) (sk : ScoreKeeper) (acc : List NodeId) (b : NodeId)
      (q : NodeId × SampleId), q ∈ getv sk b →
      q ∈ getv (walk_round upd nodes F sk acc).1 b := by
  intro F
  induction F with
  | nil =>
    intro sk acc b q hq
    exact hq
  | cons a rest ih =>
    intro sk acc b q hq
    have hq1 : q ∈ getv (upd sk a) b := by
      rw [hv]
      by_cases h : b = a
      · subst h
        rw [if_pos rfl, mem_setAdd]
        exact Or.inl hq
      · rw [if_neg h]
        exact hq
    simp only [walk_round]
    cases hd : dget nodes a with
    | none => exact hq1
    | some recd => exact ih (upd sk a) _ b q hq1

/-- New entries produced by the round are the pair, at frontier elements. -/
theorem walk_round_confine
    (hv : ∀ sk a b, getv (upd sk a) b =
      if b = a then setAdd (getv sk a) pair else getv sk b) :
    ∀ (F : List NodeId) (sk : ScoreKeeper) (acc : List NodeId) (b : NodeId)
      (q : NodeId × SampleId), q ∈ getv (walk_round upd nodes F sk acc).1 b →
      q ∈ getv sk b ∨ (b ∈ F ∧ q = pair) := by
  intro F
  induction F with
  | nil =>
    intro sk acc b q hq
    exact Or.inl hq
  | cons a rest ih =>
    intro sk acc b q hq
    have hstep : ∀ q', q' ∈ getv (upd sk a) b →
        q' ∈ getv sk b ∨ (b = a ∧ q' = pair) := by
      intro q' hq'
      rw [hv] at hq'
      by_cases h : b = a
      · rw [if_pos h, mem_setAdd] at hq'
        rcases hq' with hq' | hq'
        · exact Or.inl (h ▸ hq')
        · exact Or.inr ⟨h, hq'⟩
      · rw [if_neg h] at hq'
        exact Or.inl hq'
    simp only [walk_round] at hq
    cases hd : dget nodes a with
    | none =>
      rw [hd] at hq
      rcases hstep q hq with h | ⟨h1, h2⟩
      · exact Or.inl h
      · exact Or.inr ⟨by rw [h1]; exact List.mem_cons_self a rest, h2⟩
    | some recd =>
      rw [hd] at hq
      rcases ih (upd sk a) _ b q hq with h | ⟨h1, h2⟩
      · rcases hstep q h with h' | ⟨h1', h2'⟩
        · exact Or.inl h'
        · exact Or.inr ⟨by rw [h1']; exact List.mem_cons_self a rest, h2'⟩
      · exact Or.inr ⟨List.mem_cons_of_mem a h1, h2⟩

/-- Entries at untouched keys are unchanged by the round (list equality). -/
theorem walk_round_untouched
    (hv : ∀ sk a b, getv (upd sk a) b =
      if b = a then setAdd (getv sk a) pair else getv sk b) :
    ∀ (F : List NodeId) (sk : ScoreKeeper) (acc : List NodeId) (b : NodeId),
      b ∉ F → getv (walk_round upd nodes F sk acc).1 b = getv sk b := by
  intro F
  induction F with
  | nil =>
    intro sk acc b _
    rfl
  | cons a rest ih =>
    intro sk acc b hb
    have hba : b ≠ a := fun h => hb (h ▸ List.mem_cons_self a rest)
    have hstep : getv (upd sk a) b = getv sk b := by
      rw [hv, if_neg hba]
    simp only [walk_round]
    cases hd : dget nodes a with
    | none => exact hstep
    | some recd =>
      rw [ih (upd sk a) _ b (fun h => hb (List.mem_cons_of_mem a h)), hstep]

/-- Elements of the produced frontier come from the accumulator or are
parents of processed frontier elements. -/
theorem walk_round_frontier_sub :
    ∀ (F : List NodeId) (sk : ScoreKeeper) (acc : List NodeId) (x : NodeId),
      x ∈ (walk_round upd nodes F sk acc).2.1 →
      x ∈ acc ∨ ∃ f ∈ F, StepUp nodes f x := by
  intro F
  induction F with
  | nil =>
    intro sk acc x hx
    exact Or.inl hx
  | cons a rest ih =>
    intro sk acc x hx
    simp only [walk_round] at hx
    cases hd : dget nodes a with
    | none =>
      rw [hd] at hx
      exact Or.inl hx
    | some recd =>
      rw [hd] at hx
      rcases ih (upd sk a) _ x hx with h | ⟨f, hf, hs⟩
      · rw [mem_setUnion] at h
        rcases h with h | h
        · exact Or.inl h
        · exact Or.inr ⟨a, List.mem_cons_self a rest, recd, hd, h⟩
      · exact Or.inr ⟨f, List.mem_cons_of_mem a hf, hs⟩

/-- On a successful round: the pair is recorded at every frontier element, and
the produced frontier holds exactly the accumulator and the parents of the
frontier elements. -/
theorem walk_round_none
    (hv : ∀ sk a b, getv (upd sk a) b =
      if b = a then setAdd (getv sk a) pair else getv sk b) :
    ∀ (F : List NodeId) (sk : ScoreKeeper) (acc : List NodeId),
      (walk_round upd nodes F sk acc).2.2 = none →
      (∀ b, b ∈ F → pair ∈ getv (walk_round upd nodes F sk acc).1 b) ∧
      (∀ x, (x ∈ acc ∨ ∃ f ∈ F, StepUp nodes f x) →
        x ∈ (walk_round upd nodes F sk acc).2.1) := by
  intro F
  induction F with
  | nil =>
    intro sk acc _
    refine ⟨fun b hb => absurd hb (List.not_mem_nil b), fun x hx => ?_⟩
    rcases hx with hx | ⟨f, hf, _⟩
    · exact hx
    · exact absurd hf (List.not_mem_nil f)
  | cons a rest ih =>
    intro sk acc herr
    simp only [walk_round] at herr ⊢
    cases hd : dget nodes a with
    | none =>
      rw [hd] at herr
      exact absurd herr (by simp)
    | some recd =>
      rw [hd] at herr
      obtain ⟨ih1, ih2⟩ := ih (upd sk a) (setUnion acc recd.parents) herr
      constructor
      · intro b hb
        rcases List.mem_cons.mp hb with hb | hb
        · subst hb
          apply walk_round_mono hv
          rw [hv, if_pos rfl, mem_setAdd]
          exact Or.inr rfl
        · exact ih1 b hb
      · intro x hx
        apply ih2
        rcases hx with hx | ⟨f, hf, hs⟩
        · exact Or.inl (by rw [mem_setUnion]; exact Or.inl hx)
        · rcases List.mem_cons.mp hf with hf | hf
          · subst hf
            obtain ⟨recd', hd', hp⟩ := hs
            rw [hd] at hd'
            cases hd'
            exact Or.inl (by rw [mem_setUnion]; exact Or.inr hp)
          · exact Or.inr ⟨f, hf, hs⟩

/-- A round over a frontier whose elements all have records succeeds. -/
theorem walk_round_no_err :
    ∀ (F : List NodeId) (sk : ScoreKeeper) (acc : List NodeId),
      (∀ f ∈ F, ∃ recd, dget nodes f = some recd) →
      (walk_round upd nodes F sk acc).2.2 = none := by
  intro F
  induction F with
  | nil =>
    intro sk acc _
    rfl
  | cons a rest ih =>
    intro sk acc hrec
    simp only [walk_round]
    obtain ⟨recd, hd⟩ := hrec a (List.mem_cons_self a rest)
    rw [hd]
    exact ih (upd sk a) _ (fun f hf => hrec f (List.mem_cons_of_mem a hf))

/-- The whole walk leaves the other pair map untouched (any outcome). -/
theorem walk_geto (ho : ∀ sk a b, geto (upd sk a) b = geto sk b) :
    ∀ (fuel : Nat) (F : List NodeId) (sk : ScoreKeeper) (b : NodeId),
      geto (walk upd nodes fuel F sk).1 b = geto sk b := by
  intro fuel
  induction fuel with
  | zero =>
    intro F sk b
    cases F with
    | nil => rfl
    | cons a rest => rfl
  | succ fuel ih =>
    intro F sk b
    cases F with
    | nil => rfl
    | cons a rest =>
      simp only [walk]
      have hg := @walk_round_geto upd nodes geto ho (a :: rest) sk [] b
      rcases hr : walk_round upd nodes (a :: rest) sk [] with ⟨sk1, acc, err⟩
      rw [hr] at hg
      cases err with
      | some e => exact hg
      | none => rw [ih acc sk1 b, hg]

/-- Entries already present survive the whole walk (any outcome). -/
theorem walk_mono
    (hv : ∀ sk a b, getv (upd sk a) b =
      if b = a then setAdd (getv sk a) pair else getv sk b) :
    ∀ (fuel : Nat) (F : List NodeId) (sk : ScoreKeeper) (b : NodeId)
      (q : NodeId × SampleId), q ∈ getv sk b →
      q ∈ getv (walk upd nodes fuel F sk).1 b := by
  intro fuel
  induction fuel with
  | zero =>
    intro F sk b q hq
    cases F with
    | nil => exact hq
    | cons a rest => exact hq
  | succ fuel ih =>
    intro F sk b q hq
    cases F with
    | nil => exact hq
    | cons a rest =>
      simp only [walk]
      have hm := @walk_round_mono upd nodes getv pair hv (a :: rest) sk [] b q hq
      rcases hr : walk_round upd nodes (a :: rest) sk [] with ⟨sk1, acc, err⟩
      rw [hr] at hm
      cases err with
      | some e => exact hm
      | none => exact ih acc sk1 b q hm

/-- Elements of the frontier produced by a round over `F` (with empty
accumulator) are reachable from `F`. -/
theorem walk_acc_reach :
    ∀ (F : List NodeId) (sk : ScoreKeeper) (b : NodeId),
      ReachF nodes (walk_round upd nodes F sk []).2.1 b → ReachF nodes F b := by
  intro F sk b hb
  have hacc : ∀ x, x ∈ (walk_round upd nodes F sk []).2.1 →
      ∃ f ∈ F, StepUp nodes f x := by
    intro x hx
    rcases walk_round_frontier_sub F sk [] x hx with h | h
    · exact absurd h (List.not_mem_nil x)
    · exact h
  rcases hb with hb | ⟨g, hg, hanc⟩
  · obtain ⟨f, hf, hs⟩ := hacc b hb
    exact Or.inr ⟨f, hf, Relation.TransGen.single hs⟩
  · obtain ⟨f, hf, hs⟩ := hacc g hg
    exact Or.inr ⟨f, hf, Relation.TransGen.head hs hanc⟩

/-- New entries produced by the whole walk are the pair, at nodes reachable
from the frontier (any outcome). -/
theorem walk_confine
    (hv : ∀ sk a b, getv (upd sk a) b =
      if b = a then setAdd (getv sk a) pair else getv sk b) :
    ∀ (fuel : Nat) (F : List NodeId) (sk : ScoreKeeper) (b : NodeId)
      (q : NodeId × SampleId), q ∈ getv (walk upd nodes fuel F sk).1 b →
      q ∈ getv sk b ∨ (q = pair ∧ ReachF nodes F b) := by
  intro fuel
  induction fuel with
  | zero =>
    intro F sk b q hq
    cases F with
    | nil => exact Or.inl hq
    | cons a rest => exact Or.inl hq
  | succ fuel ih =>
    intro F sk b q hq
    cases F with
    | nil => exact Or.inl hq
    | cons a rest =>
      simp only [walk] at hq
      have hconf := @walk_round_confine upd nodes getv pair hv (a :: rest) sk [] b q
      have hreach := @walk_acc_reach upd nodes (a :: rest) sk b
      rcases hr : walk_round upd nodes (a :: rest) sk [] with ⟨sk1, acc, err⟩
      rw [hr] at hq hconf hreach
      cases err with
      | some e =>
        rcases hconf hq with h | ⟨h1, h2⟩
        · exact Or.inl h
        · exact Or.inr ⟨h2, Or.inl h1⟩
      | none =>
        rcases ih acc sk1 b q hq with h | ⟨h1, h2⟩
        · rcases hconf h with h' | ⟨h1', h2'⟩
          · exact Or.inl h'
          · exact Or.inr ⟨h2', Or.inl h1'⟩
        · exact Or.inr ⟨h1, hreach h2⟩

/-- Entries at nodes not reachable from the frontier are unchanged by the
whole walk (any outcome, list equality). -/
theorem walk_untouched
    (hv : ∀ sk a b, getv (upd sk a) b =
      if b = a then setAdd (getv sk a) pair else getv sk b) :
    ∀ (fuel : Nat) (F : List NodeId) (sk : ScoreKeeper) (b : NodeId),
      ¬ ReachF nodes F b → getv (walk upd nodes fuel F sk).1 b = getv sk b := by
  intro fuel
  induction fuel with
  | zero =>
    intro F sk b _
    cases F with
    | nil => rfl
    | cons a rest => rfl
  | succ fuel ih =>
    intro F sk b hb
    cases F with
    | nil => rfl
    | cons a rest =>
      have hbF : b ∉ (a :: rest) := fun h => hb (Or.inl h)
      simp only [walk]
      have hu := @walk_round_untouched upd nodes getv pair hv (a :: rest) sk [] b hbF
      have hreach := @walk_acc_reach upd nodes (a :: rest) sk b
      rcases hr : walk_round upd nodes (a :: rest) sk [] with ⟨sk1, acc, err⟩
      rw [hr] at hu hreach
      cases err with
      | some e => exact hu
      | none =>
        rw [ih acc sk1 b (fun h => hb (hreach h)), hu]

/-- Case analysis on the first step of an ancestor path. -/
theorem anc_cases {nodes : Dict NodeId NodeRecord} {f b : NodeId}
    (h : Anc nodes f b) :
    StepUp nodes f b ∨ ∃ c, StepUp nodes f c ∧ Anc nodes c b := by
  obtain ⟨c, hs, hrt⟩ := Relation.TransGen.head'_iff.mp h
  rcases Relation.reflTransGen_iff_eq_or_transGen.mp hrt with rfl | ht
  · exact Or.inl hs
  · exact Or.inr ⟨c, hs, ht⟩

/-- On a successful walk the pair is recorded at every node reachable from
the frontier. -/
theorem walk_cover
    (hv : ∀ sk a b, getv (upd sk a) b =
      if b = a then setAdd (getv sk a) pair else getv sk b) :
    ∀ (fuel : Nat) (F : List NodeId) (sk : ScoreKeeper),
      (walk upd nodes fuel F sk).2 = none →
      ∀ b, ReachF nodes F b → pair ∈ getv (walk upd nodes fuel F sk).1 b := by
  intro fuel
  induction fuel with
  | zero =>
    intro F sk herr b hb
    cases F with
    | nil =>
      rcases hb with hb | ⟨f, hf, _⟩
      · exact absurd hb (List.not_mem_nil b)
      · exact absurd hf (List.not_mem_nil f)
    | cons a rest => exact absurd herr (by simp [walk])
  | succ fuel ih =>
    intro F sk herr b hb
    cases F with
    | nil =>
      rcases hb with hb | ⟨f, hf, _⟩
      · exact absurd hb (List.not_mem_nil b)
      · exact absurd hf (List.not_mem_nil f)
    | cons a rest =>
      simp only [walk] at herr ⊢
      rcases hr : walk_round upd nodes (a :: rest) sk [] with ⟨sk1, acc, err⟩
      have hnone := @walk_round_none upd nodes getv pair hv (a :: rest) sk []
      rw [hr] at hnone herr
      cases err with
      | some e => exact Option.noConfusion herr
      | none =>
        obtain ⟨hcov, hfr⟩ := hnone rfl
        rcases hb with hbF | ⟨f, hf, hanc⟩
        · exact walk_mono hv fuel acc sk1 b _ (hcov b hbF)
        · rcases anc_cases hanc with hs | ⟨c, hs, hanc'⟩
          · exact ih acc sk1 herr b (Or.inl (hfr b (Or.inr ⟨f, hf, hs⟩)))
          · exact ih acc sk1 herr b (Or.inr ⟨c, hfr c (Or.inr ⟨f, hf, hs⟩), hanc'⟩)

/-- Termination: when frontier elements lie in a set `S` closed under parent
steps, all of whose members have records, and a measure strictly decreasing
along parent steps bounds the frontier below the fuel, the walk succeeds. -/
theorem walk_no_err (m : NodeId → Nat) (S : NodeId → Prop)
    (hS_step : ∀ x y, S x → StepUp nodes x y → S y)
    (hS_rec : ∀ x, S x → ∃ recd, dget nodes x = some recd)
    (hm : ∀ x y, S x → StepUp nodes x y → m y < m x) :
    ∀ (fuel : Nat) (F : List NodeId) (sk : ScoreKeeper),
      (∀ f ∈ F, S f) → (∀ f ∈ F, m f < fuel) →
      (walk upd nodes fuel F sk).2 = none := by
  intro fuel
  induction fuel with
  | zero =>
    intro F sk hSF hFm
    cases F with
    | nil => rfl
    | cons a rest => exact absurd (hFm a (List.mem_cons_self a rest)) (by omega)
  | succ fuel ih =>
    intro F sk hSF hFm
    cases F with
    | nil => rfl
    | cons a rest =>
      simp only [walk]
      have hrerr := @walk_round_no_err upd nodes (a :: rest) sk []
        (fun f hf => hS_rec f (hSF f hf))
      have hsub := @walk_round_frontier_sub upd nodes (a :: rest) sk []
      rcases hr : walk_round upd nodes (a :: rest) sk [] with ⟨sk1, acc, err⟩
      rw [hr] at hrerr hsub
      cases err with
      | some e => exact absurd hrerr (by simp)
      | none =>
        have hacc : ∀ x ∈ acc, ∃ f ∈ (a :: rest), StepUp nodes f x := by
          intro x hx
          rcases hsub x hx with h | h
          · exact absurd h (List.not_mem_nil x)
          · exact h
        apply ih acc sk1
        · intro x hx
          obtain ⟨f, hf, hs⟩ := hacc x hx
          exact hS_step f x (hSF f hf) hs
        · intro x hx
          obtain ⟨f, hf, hs⟩ := hacc x hx
          have h1 := hm f x (hSF f hf) hs
          have h2 := hFm f hf
          omega

end WalkLemmas

/-- The initial frontier `set(node_record.parents)` reaches exactly the
ancestors of `node_id`. -/
theorem reachF_parents_iff {nodes : Dict NodeId NodeRecord} {node_id : NodeId}
    {recN : NodeRecord} (hN : dget nodes node_id = some recN) (b : NodeId) :
    ReachF nodes (setUnion [] recN.parents) b ↔ Anc nodes node_id b := by
  have hmemF : ∀ x, x ∈ setUnion ([] : List NodeId) recN.parents ↔ x ∈ recN.parents := by
    intro x
    rw [mem_setUnion]
    simp
  constructor
  · rintro (hb | ⟨f, hf, hanc⟩)
    · exact Relation.TransGen.single ⟨recN, hN, (hmemF b).mp hb⟩
    · exact Relation.TransGen.head ⟨recN, hN, (hmemF f).mp hf⟩ hanc
  · intro hanc
    rcases anc_cases hanc with hs | ⟨c, hs, hanc'⟩
    · obtain ⟨recd, hd, hp⟩ := hs
      rw [hN] at hd
      cases hd
      exact Or.inl ((hmemF b).mpr hp)
    · obtain ⟨recd, hd, hp⟩ := hs
      rw [hN] at hd
      cases hd
      exact Or.inr ⟨c, (hmemF c).mpr hp, hanc'⟩

section WalkSpec

variable {upd : ScoreKeeper → NodeId → ScoreKeeper}
variable {nodes : Dict NodeId NodeRecord}
variable {getv geto : ScoreKeeper → NodeId → List (NodeId × SampleId)}
variable {pair : NodeId × SampleId}

/-- Full characterization of a walk seeded with `node_id`'s parents under an
acyclicity measure: it succeeds, records the pair at exactly the ancestors of
`node_id`, and leaves the other pair map untouched. -/
theorem walk_parents_spec
    (hv : ∀ sk a b, getv (upd sk a) b =
      if b = a then setAdd (getv sk a) pair else getv sk b)
    (ho : ∀ sk a b, geto (upd sk a) b = geto sk b)
    (m : NodeId → Nat) (node_id : NodeId) (recN : NodeRecord) (sk : ScoreKeeper)
    (fuel : Nat)
    (hN : dget nodes node_id = some recN)
    (hrec : ∀ a, Anc nodes node_id a → ∃ recd, dget nodes a = some recd)
    (hmS : ∀ x y, (x = node_id ∨ Anc nodes node_id x) → StepUp nodes x y → m y < m x)
    (hfuel : m node_id ≤ fuel) :
    (walk upd nodes fuel (setUnion [] recN.parents) sk).2 = none ∧
    (∀ b q, q ∈ getv (walk upd nodes fuel (setUnion [] recN.parents) sk).1 b ↔
      q ∈ getv sk b ∨ (Anc nodes node_id b ∧ q = pair)) ∧
    (∀ b, ¬ Anc nodes node_id b →
      getv (walk upd nodes fuel (setUnion [] recN.parents) sk).1 b = getv sk b) ∧
    (∀ b, geto (walk upd nodes fuel (setUnion [] recN.parents) sk).1 b = geto sk b) := by
  have hmemF : ∀ x, x ∈ setUnion ([] : List NodeId) recN.parents ↔ x ∈ recN.parents := by
    intro x
    rw [mem_setUnion]
    simp
  have herr : (walk upd nodes fuel (setUnion [] recN.parents) sk).2 = none := by
    apply walk_no_err m (Anc nodes node_id)
      (fun x y hx hs => Relation.TransGen.tail hx hs) hrec
      (fun x y hx hs => hmS x y (Or.inr hx) hs)
    · intro f hf
      exact Relation.TransGen.single ⟨recN, hN, (hmemF f).mp hf⟩
    · intro f hf
      have h1 := hmS node_id f (Or.inl rfl) ⟨recN, hN, (hmemF f).mp hf⟩
      omega
  refine ⟨herr, ?_, ?_, fun b => walk_geto ho fuel _ sk b⟩
  · intro b q
    constructor
    · intro hq
      rcases walk_confine hv fuel _ sk b q hq with h | ⟨h1, h2⟩
      · exact Or.inl h
      · exact Or.inr ⟨(reachF_parents_iff hN b).mp h2, h1⟩
    · rintro (hq | ⟨hanc, rfl⟩)
      · exact walk_mono hv fuel _ sk b q hq
      · exact walk_cover hv fuel _ sk herr b ((reachF_parents_iff hN b).mpr hanc)
  · intro b hb
    exact walk_untouched hv fuel _ sk b
      (fun h => hb ((reachF_parents_iff hN b).mp h))

end WalkSpec

/-- Behaviour of on_request_score_update by cases on the two lookups. -/
theorem on_request_spec (node : Node) (fuel : Nat) (root : Root)
    (n : NodeId) (s : SampleId) :
    (dget node.dht.nodes n = none ∧
      on_request_score_update node fuel root n s = (node, some .keyError)) ∨
    (∃ recN, dget node.dht.nodes n = some recN ∧
      (on_request_score_update node fuel root n s).2 =
        (walk (updContact n s) node.dht.nodes fuel (setUnion [] recN.parents)
          ((dget node.dht.scores root).getD ⟨[], []⟩)).2 ∧
      (on_request_score_update node fuel root n s).1.dht.nodes = node.dht.nodes ∧
      dget (on_request_score_update node fuel root n s).1.dht.scores root =
        some (walk (updContact n s) node.dht.nodes fuel (setUnion [] recN.parents)
          ((dget node.dht.scores root).getD ⟨[], []⟩)).1 ∧
      (∀ r', r' ≠ root →
        dget (on_request_score_update node fuel root n s).1.dht.scores r' =
          dget node.dht.scores r')) := by
  unfold on_request_score_update
  cases hn : dget node.dht.nodes n with
  | none => exact Or.inl ⟨rfl, rfl⟩
  | some recN =>
    refine Or.inr ⟨recN, rfl, ?_⟩
    cases hsc : dget node.dht.scores root with
    | some sk0 =>
      simp only [hsc, Option.isSome_some, if_true, Option.getD_some]
      refine ⟨by trivial, by trivial, ?_, ?_⟩
      · rw [dget_dset, if_pos rfl]
      · intro r' hr'
        rw [dget_dset, if_neg hr']
    | none =>
      simp only [hsc, Option.isSome_none, Bool.false_eq_true, if_false, Option.getD_none]
      have hset : dget (dset node.dht.scores root ⟨[], []⟩) root =
          some (⟨[], []⟩ : ScoreKeeper) := by
        rw [dget_dset, if_pos rfl]
      simp only [hset]
      refine ⟨by trivial, by trivial, ?_, ?_⟩
      · rw [dget_dset, if_pos rfl]
      · intro r' hr'
        rw [dget_dset, if_neg hr', dget_dset, if_neg hr']

/-- Behaviour of on_response_score_update by cases on the two lookups. -/
theorem on_response_spec (node : Node) (fuel : Nat) (root : Root)
    (n : NodeId) (s : SampleId) :
    (dget node.dht.nodes n = none ∧
      on_response_score_update node fuel root n s = (node, some .keyError)) ∨
    (∃ recN, dget node.dht.nodes n = some recN ∧ dget node.dht.scores root = none ∧
      on_response_score_update node fuel root n s = (node, some .keyError)) ∨
    (∃ recN sk0, dget node.dht.nodes n = some recN ∧
      dget node.dht.scores root = some sk0 ∧
      (on_response_score_update node fuel root n s).2 =
        (walk (updReply n s) node.dht.nodes fuel (setUnion [] recN.parents) sk0).2 ∧
      (on_response_score_update node fuel root n s).1.dht.nodes = node.dht.nodes ∧
      dget (on_response_score_update node fuel root n s).1.dht.scores root =
        some (walk (updReply n s) node.dht.nodes fuel (setUnion [] recN.parents) sk0).1 ∧
      (∀ r', r' ≠ root →
        dget (on_response_score_update node fuel root n s).1.dht.scores r' =
          dget node.dht.scores r')) := by
  unfold on_response_score_update
  cases hn : dget node.dht.nodes n with
  | none => exact Or.inl ⟨rfl, rfl⟩
  | some recN =>
    cases hsc : dget node.dht.scores root with
    | none => exact Or.inr (Or.inl ⟨recN, rfl, rfl, rfl⟩)
    | some sk0 =>
      refine Or.inr (Or.inr ⟨recN, sk0, rfl, rfl, rfl, rfl, ?_, ?_⟩)
      · show dget (dset node.dht.scores root
          (walk (updReply n s) node.dht.nodes fuel (setUnion [] recN.parents)
            sk0).1) root = _
        rw [dget_dset, if_pos rfl]
      · intro r' hr'
        show dget (dset node.dht.scores root
          (walk (updReply n s) node.dht.nodes fuel (setUnion [] recN.parents)
            sk0).1) r' = _
        rw [dget_dset, if_neg hr']

/-! ## Claim C4: cyclic parent graph -/

/-- Cyclic state: node 1 has parents [2] and node 2 has parents [1]. -/
def exC4 : Node :=
  { own_id := 0
    dht := { sample_mapping := []
             nodes := [(0, ⟨0, [], []⟩), (1, ⟨1, [], [2]⟩), (2, ⟨2, [], [1]⟩)]
             scores := [] } }

/-- On the two-cycle the frontier alternates between `[1]` and `[2]` and never
empties, so the walk exhausts any amount of fuel. -/
theorem walk_cycle_12 (n : NodeId) (s : SampleId) :
    ∀ (fuel : Nat) (sk : ScoreKeeper) (F : List NodeId), F = [1] ∨ F = [2] →
      (walk (updContact n s)
        [(0, ⟨0, [], []⟩), (1, ⟨1, [], [2]⟩), (2, ⟨2, [], [1]⟩)] fuel F sk).2 =
      some .fuelOut := by
  intro fuel
  induction fuel with
  | zero =>
    intro sk F hF
    rcases hF with rfl | rfl <;> rfl
  | succ fuel ih =>
    intro sk F hF
    rcases hF with rfl | rfl
    · exact ih (updContact n s sk 1) [2] (Or.inr rfl)
    · exact ih (updContact n s sk 2) [1] (Or.inl rfl)

/-- C4: on the cyclic graph `1 ⇄ 2`, on_request_score_update never terminates:
for every fuel value the walk reports fuel exhaustion, never a detectable
cycle error.  The claim (and the source's own FIXME comments) call for a
CyclicGraphError instead. -/
theorem C4_cycle_hangs :
    ∀ fuel : Nat, (on_request_score_update exC4 fuel 7 1 5).2 = some Err.fuelOut := by
  intro fuel
  exact walk_cycle_12 1 5 fuel ⟨[], []⟩ [2] (Or.inr rfl)

/-! ## Claim C5: score updates reach exactly the ancestors -/

/-- C5: with `node_id` in the graph, every ancestor holding a record, and the
parent relation above `node_id` acyclic (witnessed by a measure `m` strictly
decreasing along parent steps, with `m node_id` within the fuel):
on_request_score_update succeeds and adds `(node_id, sample_id)` to the
contacted-set of exactly the ancestors of `node_id`, leaving all replied-sets
untouched; and when a ScoreKeeper for the root already exists,
on_response_score_update performs the identical traversal on the replied-sets,
leaving all contacted-sets untouched. -/
theorem C5_score_updates
    (node : Node) (fuel : Nat) (root : Root) (node_id : NodeId) (sample_id : SampleId)
    (recN : NodeRecord) (m : NodeId → Nat)
    (hN : dget node.dht.nodes node_id = some recN)
    (hrec : ∀ a, Anc node.dht.nodes node_id a → ∃ recd, dget node.dht.nodes a = some recd)
    (hmS : ∀ x y, (x = node_id ∨ Anc node.dht.nodes node_id x) →
      StepUp node.dht.nodes x y → m y < m x)
    (hfuel : m node_id ≤ fuel) :
    ((on_request_score_update node fuel root node_id sample_id).2 = none ∧
      ∃ sk', dget (on_request_score_update node fuel root node_id sample_id).1.dht.scores
          root = some sk' ∧
        (∀ a q, q ∈ pairsC sk' a ↔
          q ∈ pairsC ((dget node.dht.scores root).getD ⟨[], []⟩) a ∨
            (Anc node.dht.nodes node_id a ∧ q = (node_id, sample_id))) ∧
        (∀ a, ¬ Anc node.dht.nodes node_id a →
          pairsC sk' a = pairsC ((dget node.dht.scores root).getD ⟨[], []⟩) a) ∧
        (∀ a, pairsR sk' a = pairsR ((dget node.dht.scores root).getD ⟨[], []⟩) a)) ∧
    (∀ sk0, dget node.dht.scores root = some sk0 →
      (on_response_score_update node fuel root node_id sample_id).2 = none ∧
      ∃ sk', dget (on_response_score_update node fuel root node_id sample_id).1.dht.scores
          root = some sk' ∧
        (∀ a q, q ∈ pairsR sk' a ↔ q ∈ pairsR sk0 a ∨
          (Anc node.dht.nodes node_id a ∧ q = (node_id, sample_id))) ∧
        (∀ a, ¬ Anc node.dht.nodes node_id a → pairsR sk' a = pairsR sk0 a) ∧
        (∀ a, pairsC sk' a = pairsC sk0 a)) := by
  constructor
  · have hspec := walk_parents_spec (pairsC_updContact node_id sample_id)
      (pairsR_updContact node_id sample_id) m node_id recN
      ((dget node.dht.scores root).getD ⟨[], []⟩) fuel hN hrec hmS hfuel
    rcases on_request_spec node fuel root node_id sample_id with
      ⟨hnone, _⟩ | ⟨recN', hn', h2, _, h4, _⟩
    · rw [hnone] at hN
      exact Option.noConfusion hN
    · obtain rfl : recN' = recN := by
        rw [hn'] at hN
        exact Option.some.inj hN
      refine ⟨by rw [h2]; exact hspec.1, _, h4, ?_, ?_, ?_⟩
      · exact hspec.2.1
      · exact hspec.2.2.1
      · exact hspec.2.2.2
  · intro sk0 hsk0
    have hspec := walk_parents_spec (pairsR_updReply node_id sample_id)
      (pairsC_updReply node_id sample_id) m node_id recN sk0 fuel hN hrec hmS hfuel
    rcases on_response_spec node fuel root node_id sample_id with
      ⟨hnone, _⟩ | ⟨recN', hn', hscn, _⟩ | ⟨recN', sk0', hn', hsc', h2, _, h4, _⟩
    · rw [hnone] at hN
      exact Option.noConfusion hN
    · rw [hscn] at hsk0
      exact Option.noConfusion hsk0
    · obtain rfl : recN' = recN := by
        rw [hn'] at hN
        exact Option.some.inj hN
      obtain rfl : sk0' = sk0 := by
        rw [hsc'] at hsk0
        exact Option.some.inj hsk0
      refine ⟨by rw [h2]; exact hspec.1, _, h4, ?_, ?_, ?_⟩
      · exact hspec.2.1
      · exact hspec.2.2.1
      · exact hspec.2.2.2

/-- The two-node graph used by the concrete witnesses: node 1's only parent is
the local node 0. -/
def nodesW : Dict NodeId NodeRecord := [(0, ⟨0, [1], []⟩), (1, ⟨1, [], [0]⟩)]

theorem nodesW_dget (x : NodeId) (recd : NodeRecord) (h : dget nodesW x = some recd) :
    (x = 0 ∧ recd = ⟨0, [1], []⟩) ∨ (x = 1 ∧ recd = ⟨1, [], [0]⟩) := by
  unfold nodesW at h
  simp only [dget] at h
  split_ifs at h with h0 h1
  · exact Or.inl ⟨h0.symm, (Option.some.inj h).symm⟩
  · exact Or.inr ⟨h1.symm, (Option.some.inj h).symm⟩

theorem nodesW_step {x y : NodeId} (h : StepUp nodesW x y) : x = 1 ∧ y = 0 := by
  obtain ⟨recd, hd, hp⟩ := h
  rcases nodesW_dget x recd hd with ⟨hx, hr⟩ | ⟨hx, hr⟩
  · subst hr
    simp at hp
  · subst hr
    simp at hp
    exact ⟨hx, hp⟩

theorem nodesW_anc {a : NodeId} (h : Anc nodesW 1 a) : a = 0 := by
  rcases anc_cases h with hs | ⟨c, hs, hanc⟩
  · exact (nodesW_step hs).2
  · have hc := (nodesW_step hs).2
    subst hc
    rcases anc_cases hanc with hs' | ⟨d, hs', _⟩
    · exact absurd (nodesW_step hs').1 (by norm_num)
    · exact absurd (nodesW_step hs').1 (by norm_num)

theorem nodesW_rec : ∀ a, Anc nodesW 1 a → ∃ recd, dget nodesW a = some recd := by
  intro a h
  rw [nodesW_anc h]
  exact ⟨⟨0, [1], []⟩, rfl⟩

theorem nodesW_meas : ∀ x y, (x = 1 ∨ Anc nodesW 1 x) → StepUp nodesW x y →
    id y < id x := by
  intro x y _ hs
  obtain ⟨hx1, hy0⟩ := nodesW_step hs
  subst hx1
  subst hy0
  norm_num

/-- Witness state for C5: the graph `nodesW` with an existing (empty)
ScoreKeeper for root 7. -/
def exC5 : Node := ⟨0, ⟨[], nodesW, [(7, ⟨[], []⟩)]⟩⟩

/-- C5, witness: on `exC5` both updates for root 7, node 1, sample 5 succeed
with fuel 1. -/
theorem C5_witness :
    (on_request_score_update exC5 1 7 1 5).2 = none ∧
    (on_response_score_update exC5 1 7 1 5).2 = none := by
  have h := C5_score_updates exC5 1 7 1 5 ⟨1, [], [0]⟩ id rfl nodesW_rec
    nodesW_meas (le_refl 1)
  exact ⟨h.1.1, (h.2 ⟨[], []⟩ rfl).1⟩

/-! ## Claim C10: ScoreKeeper lifecycle -/

/-- C10: on_request_score_update with an absent block_root creates a fresh
empty ScoreKeeper and succeeds (under the usual graph conditions), and it
never modifies any replied entry; on_response_score_update does not create a
keeper: with an absent block_root it fails with a missing-entry KeyError
leaving the whole node state unchanged, and it never modifies any contacted
entry. -/
theorem C10_keeper_lifecycle
    (node : Node) (fuel : Nat) (root : Root) (node_id : NodeId) (sample_id : SampleId) :
    (dget node.dht.scores root = none →
      on_response_score_update node fuel root node_id sample_id =
        (node, some .keyError)) ∧
    (∀ sk', dget (on_request_score_update node fuel root node_id sample_id).1.dht.scores
        root = some sk' →
      ∀ a, pairsR sk' a = pairsR ((dget node.dht.scores root).getD ⟨[], []⟩) a) ∧
    (∀ r', r' ≠ root →
      dget (on_request_score_update node fuel root node_id sample_id).1.dht.scores r' =
        dget node.dht.scores r') ∧
    (∀ sk' sk0, dget (on_response_score_update node fuel root node_id
        sample_id).1.dht.scores root = some sk' →
      dget node.dht.scores root = some sk0 →
      ∀ a, pairsC sk' a = pairsC sk0 a) ∧
    (∀ r', r' ≠ root →
      dget (on_response_score_update node fuel root node_id sample_id).1.dht.scores r' =
        dget node.dht.scores r') ∧
    (dget node.dht.scores root = none →
      ∀ (recN : NodeRecord) (m : NodeId → Nat),
      dget node.dht.nodes node_id = some recN →
      (∀ a, Anc node.dht.nodes node_id a → ∃ recd, dget node.dht.nodes a = some recd) →
      (∀ x y, (x = node_id ∨ Anc node.dht.nodes node_id x) →
        StepUp node.dht.nodes x y → m y < m x) →
      m node_id ≤ fuel →
      (on_request_score_update node fuel root node_id sample_id).2 = none ∧
      ∃ sk', dget (on_request_score_update node fuel root node_id
          sample_id).1.dht.scores root = some sk' ∧ ∀ a, pairsR sk' a = []) := by
  refine ⟨?_, ?_, ?_, ?_, ?_, ?_⟩
  · intro habs
    rcases on_response_spec node fuel root node_id sample_id with
      ⟨_, heq⟩ | ⟨_, _, _, heq⟩ | ⟨_, sk0, _, hsc, _⟩
    · exact heq
    · exact heq
    · rw [habs] at hsc
      exact Option.noConfusion hsc
  · intro sk' hsk' a
    rcases on_request_spec node fuel root node_id sample_id with
      ⟨_, heq⟩ | ⟨recN, _, _, _, h4, _⟩
    · rw [heq] at hsk'
      rw [show ((node, some Err.keyError) : Node × Option Err).1 = node from rfl] at hsk'
      rw [hsk'] at *
      simp only [Option.getD_some]
    · rw [h4] at hsk'
      obtain rfl := Option.some.inj hsk'
      exact walk_geto (pairsR_updContact node_id sample_id) fuel _ _ a
  · intro r' hr'
    rcases on_request_spec node fuel root node_id sample_id with
      ⟨_, heq⟩ | ⟨recN, _, _, _, _, h5⟩
    · rw [heq]
    · exact h5 r' hr'
  · intro sk' sk0 hsk' hsk0 a
    rcases on_response_spec node fuel root node_id sample_id with
      ⟨_, heq⟩ | ⟨_, _, _, heq⟩ | ⟨recN, sk0', _, hsc, _, _, h4, _⟩
    · rw [heq] at hsk'
      rw [show ((node, some Err.keyError) : Node × Option Err).1 = node from rfl] at hsk'
      rw [hsk0] at hsk'
      rw [Option.some.inj hsk']
    · rw [heq] at hsk'
      rw [show ((node, some Err.keyError) : Node × Option Err).1 = node from rfl] at hsk'
      rw [hsk0] at hsk'
      rw [Option.some.inj hsk']
    · obtain rfl : sk0' = sk0 := by
        rw [hsc] at hsk0
        exact Option.some.inj hsk0
      rw [h4] at hsk'
      obtain rfl := Option.some.inj hsk'
      exact walk_geto (pairsC_updReply node_id sample_id) fuel _ _ a
  · intro r' hr'
    rcases on_response_spec node fuel root node_id sample_id with
      ⟨_, heq⟩ | ⟨_, _, _, heq⟩ | ⟨recN, sk0, _, _, _, _, _, h5⟩
    · rw [heq]
    · rw [heq]
    · exact h5 r' hr'
  · intro habs recN m hN hrec hmS hfuel
    have h := C5_score_updates node fuel root node_id sample_id recN m hN hrec hmS hfuel
    obtain ⟨herr, sk', hsk', _, _, hR⟩ := h.1
    refine ⟨herr, sk', hsk', fun a => ?_⟩
    rw [hR a, habs]
    rfl

/-- Witness state for C10: the graph `nodesW` with no ScoreKeeper at all. -/
def exC10 : Node := ⟨0, ⟨[], nodesW, []⟩⟩

/-- C10, witness: on `exC10` (no keeper for root 7) the response fails with
KeyError leaving the state unchanged, while the request succeeds, creates the
keeper, and leaves every replied entry empty. -/
theorem C10_witness :
    on_response_score_update exC10 1 7 1 5 = (exC10, some .keyError) ∧
    (on_request_score_update exC10 1 7 1 5).2 = none ∧
    (∃ sk', dget (on_request_score_update exC10 1 7 1 5).1.dht.scores 7 = some sk' ∧
      ∀ a, pairsR sk' a = []) := by
  have h := C10_keeper_lifecycle exC10 1 7 1 5
  have ha := h.2.2.2.2.2 rfl ⟨1, [], [0]⟩ id rfl nodesW_rec nodesW_meas (le_refl 1)
  exact ⟨h.1 rfl, ha.1, ha.2⟩

/-! ## Claim C8: replied pairs are contacted pairs -/

/-- The claimed invariant: in every ScoreKeeper, each ancestor's replied
pairs are among its contacted pairs. -/
def RepliedSubC (node : Node) : Prop :=
  ∀ root sk, dget node.dht.scores root = some sk → ∀ a, pairsR sk a ⊆ pairsC sk a

/-- The pair `(n, s)` is recorded as contacted at every ancestor of `n` for
`root` — the state a successful on_request_score_update leaves behind. -/
def ContactedAtAnc (node : Node) (root : Root) (n : NodeId) (s : SampleId) : Prop :=
  ∃ sk, dget node.dht.scores root = some sk ∧
    ∀ a, Anc node.dht.nodes n a → (n, s) ∈ pairsC sk a

/-- Disciplined traces: sequences of score updates in which every response for
`(root, n, s)` is issued only when `(n, s)` is already contacted at every
ancestor of `n` — the state of affairs a successful prior
on_request_score_update with the same arguments establishes and both
operations preserve. -/
inductive GoodTrace : Node → Prop where
  | start (node : Node) (h : RepliedSubC node) : GoodTrace node
  | request (node : Node) (fuel : Nat) (root : Root) (n : NodeId) (s : SampleId) :
      GoodTrace node → GoodTrace (on_request_score_update node fuel root n s).1
  | response (node : Node) (fuel : Nat) (root : Root) (n : NodeId) (s : SampleId) :
      GoodTrace node → ContactedAtAnc node root n s →
      GoodTrace (on_response_score_update node fuel root n s).1

/-- A request preserves the invariant: it only adds contacted pairs. -/
theorem request_preserves_rsc (node : Node) (fuel : Nat) (root : Root)
    (n : NodeId) (s : SampleId) (h : RepliedSubC node) :
    RepliedSubC (on_request_score_update node fuel root n s).1 := by
  intro root' sk' hsk' a q hq
  rcases on_request_spec node fuel root n s with ⟨_, heq⟩ | ⟨recN, hn, _, _, h4, h5⟩
  · rw [heq] at hsk'
    exact h root' sk' hsk' a hq
  · by_cases hr : root' = root
    · subst hr
      rw [h4] at hsk'
      obtain rfl := Option.some.inj hsk'
      have hR := @walk_geto (updContact n s) node.dht.nodes pairsR (pairsR_updContact n s) fuel
        (setUnion [] recN.parents) ((dget node.dht.scores root').getD ⟨[], []⟩) a
      rw [hR] at hq
      have hCq : q ∈ pairsC ((dget node.dht.scores root').getD ⟨[], []⟩) a := by
        have hgen : ∀ o : Option ScoreKeeper, o = dget node.dht.scores root' →
            q ∈ pairsR (o.getD ⟨[], []⟩) a → q ∈ pairsC (o.getD ⟨[], []⟩) a := by
          intro o ho hqo
          cases o with
          | none => exact absurd hqo (List.not_mem_nil q)
          | some sk0 => exact h root' sk0 ho.symm a hqo
        exact hgen _ rfl hq
      exact walk_mono (pairsC_updContact n s) fuel _ _ a q hCq
    · rw [h5 root' hr] at hsk'
      exact h root' sk' hsk' a hq

/-- A response for a pair already contacted at every ancestor preserves the
invariant, whatever its outcome. -/
theorem response_preserves_rsc (node : Node) (fuel : Nat) (root : Root)
    (n : NodeId) (s : SampleId) (h : RepliedSubC node)
    (hca : ContactedAtAnc node root n s) :
    RepliedSubC (on_response_score_update node fuel root n s).1 := by
  intro root' sk' hsk' a q hq
  rcases on_response_spec node fuel root n s with
    ⟨_, heq⟩ | ⟨_, _, _, heq⟩ | ⟨recN, sk0, hn, hsc, _, _, h4, h5⟩
  · rw [heq] at hsk'
    exact h root' sk' hsk' a hq
  · rw [heq] at hsk'
    exact h root' sk' hsk' a hq
  · by_cases hr : root' = root
    · subst hr
      rw [h4] at hsk'
      obtain rfl := Option.some.inj hsk'
      have hC := @walk_geto (updReply n s) node.dht.nodes pairsC (pairsC_updReply n s) fuel
        (setUnion [] recN.parents) sk0 a
      rw [hC]
      rcases walk_confine (pairsR_updReply n s) fuel _ sk0 a q hq with hq0 | ⟨rfl, hreach⟩
      · exact h root' sk0 hsc a hq0
      · obtain ⟨skc, hskc, hcov⟩ := hca
        obtain rfl : skc = sk0 := by
          rw [hskc] at hsc
          exact Option.some.inj hsc
        exact hcov a ((reachF_parents_iff hn a).mp hreach)
    · rw [h5 root' hr] at hsk'
      exact h root' sk' hsk' a hq

/-- A successful request establishes that its pair is contacted at every
ancestor. -/
theorem request_establishes_caa (node : Node) (fuel : Nat) (root : Root)
    (n : NodeId) (s : SampleId)
    (hsucc : (on_request_score_update node fuel root n s).2 = none) :
    ContactedAtAnc (on_request_score_update node fuel root n s).1 root n s := by
  rcases on_request_spec node fuel root n s with ⟨_, heq⟩ | ⟨recN, hn, h2, h3, h4, _⟩
  · rw [heq] at hsucc
    exact Option.noConfusion hsucc
  · refine ⟨_, h4, fun a hanc => ?_⟩
    rw [h3] at hanc
    rw [h2] at hsucc
    exact walk_cover (pairsC_updContact n s) fuel _ _ hsucc a
      ((reachF_parents_iff hn a).mpr hanc)

/-- Both operations preserve contacted-at-ancestors facts: contacted entries
only grow under requests and are untouched by responses. -/
theorem ops_preserve_caa (node : Node) (fuel : Nat) (root : Root)
    (n : NodeId) (s : SampleId) (root' : Root) (n' : NodeId) (s' : SampleId)
    (hca : ContactedAtAnc node root' n' s') :
    ContactedAtAnc (on_request_score_update node fuel root n s).1 root' n' s' ∧
    ContactedAtAnc (on_response_score_update node fuel root n s).1 root' n' s' := by
  obtain ⟨sk, hsk, hcov⟩ := hca
  constructor
  · rcases on_request_spec node fuel root n s with ⟨_, heq⟩ | ⟨recN, hn, _, h3, h4, h5⟩
    · rw [heq]
      exact ⟨sk, hsk, hcov⟩
    · by_cases hr : root' = root
      · subst hr
        refine ⟨_, h4, fun a hanc => ?_⟩
        rw [h3] at hanc
        apply walk_mono (pairsC_updContact n s) fuel _ _ a
        simp only [hsk, Option.getD_some]
        exact hcov a hanc
      · refine ⟨sk, ?_, fun a hanc => by rw [h3] at hanc; exact hcov a hanc⟩
        rw [h5 root' hr]
        exact hsk
  · rcases on_response_spec node fuel root n s with
      ⟨_, heq⟩ | ⟨_, _, _, heq⟩ | ⟨recN, sk0, hn, hsc, _, h3, h4, h5⟩
    · rw [heq]
      exact ⟨sk, hsk, hcov⟩
    · rw [heq]
      exact ⟨sk, hsk, hcov⟩
    · by_cases hr : root' = root
      · subst hr
        obtain rfl : sk = sk0 := by
          rw [hsk] at hsc
          exact Option.some.inj hsc
        refine ⟨_, h4, fun a hanc => ?_⟩
        rw [h3] at hanc
        rw [@walk_geto (updReply n s) node.dht.nodes pairsC (pairsC_updReply n s) fuel
          (setUnion [] recN.parents) sk a]
        exact hcov a hanc
      · refine ⟨sk, ?_, fun a hanc => by rw [h3] at hanc; exact hcov a hanc⟩
        rw [h5 root' hr]
        exact hsk

/-- C8, amended: the replied-subset-of-contacted invariant holds along every
disciplined trace — one in which each response for `(root, n, s)` runs only
when `(n, s)` is already contacted at every ancestor of n, the state of
affairs a successful prior request with the same arguments establishes and
both operations preserve.  Without the discipline the source does not enforce
the invariant (C8_counterexample: a response for a never-requested pair). -/
theorem C8_replied_subset_amended :
    (∀ node, GoodTrace node → RepliedSubC node) ∧
    (∀ (node : Node) (fuel : Nat) (root : Root) (n : NodeId) (s : SampleId),
      (on_request_score_update node fuel root n s).2 = none →
      ContactedAtAnc (on_request_score_update node fuel root n s).1 root n s) ∧
    (∀ (node : Node) (fuel : Nat) (root : Root) (n : NodeId) (s : SampleId)
      (root' : Root) (n' : NodeId) (s' : SampleId),
      ContactedAtAnc node root' n' s' →
      ContactedAtAnc (on_request_score_update node fuel root n s).1 root' n' s' ∧
      ContactedAtAnc (on_response_score_update node fuel root n s).1 root' n' s') := by
  refine ⟨?_, request_establishes_caa, ops_preserve_caa⟩
  intro node h
  induction h with
  | start node h => exact h
  | request node fuel root n s _ ih => exact request_preserves_rsc node fuel root n s ih
  | response node fuel root n s _ hca ih =>
    exact response_preserves_rsc node fuel root n s ih hca

/-- C8, counterexample: from the graph `nodesW` with empty scores, a request
for sample 5 followed by a response for the never-requested sample 6 produces
a state in which `(1, 6)` is replied but not contacted at ancestor 0. -/
theorem C8_counterexample :
    ¬ RepliedSubC (on_response_score_update
      (on_request_score_update ⟨0, ⟨[], nodesW, []⟩⟩ 1 7 1 5).1 1 7 1 6).1 := by
  intro h
  have hmem := h 7 ⟨[(0, [(1, 5)])], [(0, [(1, 6)])]⟩ rfl 0
    (show ((1 : NodeId), (6 : SampleId)) ∈
      pairsR ⟨[(0, [(1, 5)])], [(0, [(1, 6)])]⟩ 0 from by decide)
  exact absurd hmem (by decide)

/-- C8, witness: the invariant holds after a disciplined trace consisting of
one request from a fresh-scored state. -/
theorem C8_witness :
    RepliedSubC (on_request_score_update ⟨0, ⟨[], nodesW, []⟩⟩ 1 7 1 5).1 :=
  C8_replied_subset_amended.1 _
    (GoodTrace.request _ 1 7 1 5
      (GoodTrace.start _ (fun _ _ hsk => Option.noConfusion hsk)))

/-! ## filter_nodes (node.py lines 172-192) -/

/-- Modelled from the spec: one pass of filter_nodes over the candidate list
(node.py lines 178-188).  The source's `filtered_nodes.update(node_id)` and
`evicted_nodes.update(self.dht.nodes[node_id])` apply `set.update` to a bare
node id and to a NodeRecord; what they iterate over depends on the concrete
`NodeId` type defined in `utils.py`, which is not part of the sources.  Spec
section 9 reconciles both as single-element insertions of the node id, and
this model follows that reading; the subsequent
`evicted_nodes.update(self.dht.nodes[node_id].children)` is a faithful
set-update with the children list.  Scores are appended to the running list;
each candidate's node score is computed with the given score fuel. -/
def filter_pass (node : Node) (scoreFuel : Nat) (block_root : Root) :
    List NodeId → ℚ → List (NodeId × ℚ) → List NodeId → List NodeId →
      Except Err (List (NodeId × ℚ) × List NodeId × List NodeId)
  | [], _, scores, filtered, evicted => .ok (scores, filtered, evicted)
  | cand :: rest, fs, scores, filtered, evicted =>
    match compute_node_score node scoreFuel block_root cand with
    | .error e => .error e
    | .ok (score, _) =>
      if fs ≤ score ∧ cand ∉ evicted then
        filter_pass node scoreFuel block_root rest fs (scores ++ [(cand, score)])
          (setAdd filtered cand) evicted
      else if score < fs then
        match dget node.dht.nodes cand with
        | none => .error .keyError
        | some recd =>
          filter_pass node scoreFuel block_root rest fs (scores ++ [(cand, score)])
            filtered (setUnion (setAdd evicted cand) recd.children)
      else
        filter_pass node scoreFuel block_root rest fs (scores ++ [(cand, score)])
          filtered evicted

/-- The `while len(filtered_nodes) == 0:` loop of filter_nodes (node.py lines
177-190), with fuel counting passes.  After each pass the threshold is reset
to the mean of all scores seen so far minus 0.1 (a ZeroDivisionError when no
scores were collected), and the loop exits as soon as the filtered set is
nonempty. -/
def filter_loop (node : Node) (scoreFuel : Nat) (block_root : Root)
    (sample_id : SampleId) :
    Nat → ℚ → List (NodeId × ℚ) → List NodeId → List NodeId →
      Except Err (List NodeId × Node)
  | 0, _, _, [], _ => .error .fuelOut
  | fuel + 1, fs, scores, [], evicted =>
    match dget node.dht.sample_mapping sample_id with
    | none => .error .keyError
    | some cands =>
      match filter_pass node scoreFuel block_root cands fs scores [] evicted with
      | .error e => .error e
      | .ok (scores', filtered', evicted') =>
        if scores'.length = 0 then .error .zeroDiv
        else filter_loop node scoreFuel block_root sample_id fuel
          ((scores'.map Prod.snd).sum / (scores'.length : ℚ) - 1 / 10)
          scores' filtered' evicted'
  | _, _, _, c :: fl, _ => .ok (c :: fl, node)

/-- filter_nodes (node.py lines 172-192): initial threshold 0.9, empty score
list, empty filtered and evicted sets.  The returned `Node` is the state
after the call; the source only reads. -/
def filter_nodes (node : Node) (passFuel scoreFuel : Nat) (block_root : Root)
    (sample_id : SampleId) : Except Err (List NodeId × Node) :=
  filter_loop node scoreFuel block_root sample_id passFuel (9 / 10) [] [] []

theorem filter_loop_done (node : Node) (scoreFuel : Nat) (block_root : Root)
    (sample_id : SampleId) (fuel : Nat) (fs : ℚ) (scores : List (NodeId × ℚ))
    (c : NodeId) (fl evicted : List NodeId) :
    filter_loop node scoreFuel block_root sample_id fuel fs scores (c :: fl) evicted
      = .ok (c :: fl, node) := by
  cases fuel <;> rfl

/-! ## Claim C3: behaviour of filter_nodes -/

/-- A pass over candidates that are all already evicted (together with their
children) admits nobody and changes nothing but the score list. -/
theorem filter_pass_stuck (node : Node) (scoreFuel : Nat) (root : Root) :
    ∀ (cs : List NodeId) (fs : ℚ) (scores : List (NodeId × ℚ)) (evicted : List NodeId),
      (∀ c ∈ cs, ∃ v n', compute_node_score node scoreFuel root c = .ok (v, n')) →
      (∀ c ∈ cs, ∃ recd, dget node.dht.nodes c = some recd) →
      (∀ c ∈ cs, c ∈ evicted) →
      (∀ c ∈ cs, ∀ recd, dget node.dht.nodes c = some recd →
        ∀ ch ∈ recd.children, ch ∈ evicted) →
      ∃ scores', filter_pass node scoreFuel root cs fs scores [] evicted =
        .ok (scores', [], evicted) ∧ scores'.length = scores.length + cs.length := by
  intro cs
  induction cs with
  | nil =>
    intro fs scores evicted _ _ _ _
    exact ⟨scores, rfl, by simp⟩
  | cons cand rest ih =>
    intro fs scores evicted hscore hrec hev hch
    obtain ⟨v, n', hv⟩ := hscore cand (List.mem_cons_self cand rest)
    obtain ⟨recd, hd⟩ := hrec cand (List.mem_cons_self cand rest)
    simp only [filter_pass, hv]
    have hc1 : ¬ (fs ≤ v ∧ cand ∉ evicted) := by
      rintro ⟨_, hno⟩
      exact hno (hev cand (List.mem_cons_self cand rest))
    rw [if_neg hc1]
    have hevu : setUnion (setAdd evicted cand) recd.children = evicted := by
      rw [setAdd_of_mem (hev cand (List.mem_cons_self cand rest))]
      exact setUnion_of_subset
        (fun ch hchm => hch cand (List.mem_cons_self cand rest) recd hd ch hchm)
    by_cases hlt : v < fs
    · rw [if_pos hlt]
      simp only [hd, hevu]
      obtain ⟨scores', heq, hlen⟩ := ih fs (scores ++ [(cand, v)]) evicted
        (fun c hc => hscore c (List.mem_cons_of_mem cand hc))
        (fun c hc => hrec c (List.mem_cons_of_mem cand hc))
        (fun c hc => hev c (List.mem_cons_of_mem cand hc))
        (fun c hc => hch c (List.mem_cons_of_mem cand hc))
      refine ⟨scores', heq, ?_⟩
      rw [hlen]
      simp [List.length_append]
      omega
    · rw [if_neg hlt]
      obtain ⟨scores', heq, hlen⟩ := ih fs (scores ++ [(cand, v)]) evicted
        (fun c hc => hscore c (List.mem_cons_of_mem cand hc))
        (fun c hc => hrec c (List.mem_cons_of_mem cand hc))
        (fun c hc => hev c (List.mem_cons_of_mem cand hc))
        (fun c hc => hch c (List.mem_cons_of_mem cand hc))
      refine ⟨scores', heq, ?_⟩
      rw [hlen]
      simp [List.length_append]
      omega

/-- A pass over candidates all scoring below the threshold admits nobody and
evicts every candidate together with its children. -/
theorem filter_pass_all_low (node : Node) (scoreFuel : Nat) (root : Root) :
    ∀ (cs : List NodeId) (fs : ℚ) (scores : List (NodeId × ℚ)) (evicted : List NodeId),
      (∀ c ∈ cs, ∃ v n', compute_node_score node scoreFuel root c = .ok (v, n') ∧ v < fs) →
      (∀ c ∈ cs, ∃ recd, dget node.dht.nodes c = some recd) →
      ∃ scores' evicted', filter_pass node scoreFuel root cs fs scores [] evicted =
        .ok (scores', [], evicted') ∧
        scores'.length = scores.length + cs.length ∧
        (∀ x ∈ evicted, x ∈ evicted') ∧
        (∀ c ∈ cs, c ∈ evicted') ∧
        (∀ c ∈ cs, ∀ recd, dget node.dht.nodes c = some recd →
          ∀ ch ∈ recd.children, ch ∈ evicted') := by
  intro cs
  induction cs with
  | nil =>
    intro fs scores evicted _ _
    refine ⟨scores, evicted, rfl, by simp, fun x hx => hx, ?_, ?_⟩
    · intro c hc
      exact absurd hc (List.not_mem_nil c)
    · intro c hc
      exact absurd hc (List.not_mem_nil c)
  | cons cand rest ih =>
    intro fs scores evicted hscore hrec
    obtain ⟨v, n', hv, hvlt⟩ := hscore cand (List.mem_cons_self cand rest)
    obtain ⟨recd, hd⟩ := hrec cand (List.mem_cons_self cand rest)
    simp only [filter_pass, hv]
    have hc1 : ¬ (fs ≤ v ∧ cand ∉ evicted) := by
      rintro ⟨hle, _⟩
      exact absurd hvlt (not_lt.mpr hle)
    rw [if_neg hc1, if_pos hvlt]
    simp only [hd]
    obtain ⟨scores', evicted', heq, hlen, hmono, hcand, hchild⟩ :=
      ih fs (scores ++ [(cand, v)]) (setUnion (setAdd evicted cand) recd.children)
        (fun c hc => hscore c (List.mem_cons_of_mem cand hc))
        (fun c hc => hrec c (List.mem_cons_of_mem cand hc))
    have hbase : ∀ x, (x ∈ evicted ∨ x = cand ∨ x ∈ recd.children) → x ∈ evicted' := by
      intro x hx
      apply hmono
      rw [mem_setUnion, mem_setAdd]
      tauto
    refine ⟨scores', evicted', heq, ?_, ?_, ?_, ?_⟩
    · rw [hlen]
      simp [List.length_append]
      omega
    · exact fun x hx => hbase x (Or.inl hx)
    · intro c hc
      rcases List.mem_cons.mp hc with rfl | hc
      · exact hbase c (Or.inr (Or.inl rfl))
      · exact hcand c hc
    · intro c hc recd' hd' ch hchm
      rcases List.mem_cons.mp hc with rfl | hc
      · obtain rfl : recd' = recd := by
          rw [hd'] at hd
          exact Option.some.inj hd
        exact hbase ch (Or.inr (Or.inr hchm))
      · exact hchild c hc recd' hd' ch hchm

/-- A pass over candidates all scoring at or above the threshold, starting
with nothing evicted, admits every candidate and evicts nobody. -/
theorem filter_pass_all_high (node : Node) (scoreFuel : Nat) (root : Root) :
    ∀ (cs : List NodeId) (fs : ℚ) (scores : List (NodeId × ℚ)) (filtered : List NodeId),
      (∀ c ∈ cs, ∃ v n', compute_node_score node scoreFuel root c = .ok (v, n') ∧ fs ≤ v) →
      ∃ scores', filter_pass node scoreFuel root cs fs scores filtered [] =
        .ok (scores', setUnion filtered cs, []) ∧
        scores'.length = scores.length + cs.length := by
  intro cs
  induction cs with
  | nil =>
    intro fs scores filtered _
    exact ⟨scores, rfl, by simp⟩
  | cons cand rest ih =>
    intro fs scores filtered hscore
    obtain ⟨v, n', hv, hvge⟩ := hscore cand (List.mem_cons_self cand rest)
    simp only [filter_pass, hv]
    rw [if_pos ⟨hvge, List.not_mem_nil cand⟩]
    obtain ⟨scores', heq, hlen⟩ := ih fs (scores ++ [(cand, v)]) (setAdd filtered cand)
      (fun c hc => hscore c (List.mem_cons_of_mem cand hc))
    refine ⟨scores', ?_, ?_⟩
    · rw [show setUnion filtered (cand :: rest) =
        setUnion (setAdd filtered cand) rest from rfl]
      exact heq
    · rw [hlen]
      simp [List.length_append]
      omega

/-- Once every candidate (with its children) is evicted, every further pass
collects scores but admits nobody, and the loop consumes any amount of fuel. -/
theorem filter_loop_stuck (node : Node) (scoreFuel : Nat) (root : Root)
    (sid : SampleId) (cands : List NodeId)
    (hc : dget node.dht.sample_mapping sid = some cands)
    (hne : cands ≠ [])
    (hscore : ∀ c ∈ cands, ∃ v n', compute_node_score node scoreFuel root c = .ok (v, n'))
    (hrec : ∀ c ∈ cands, ∃ recd, dget node.dht.nodes c = some recd) :
    ∀ (fuel : Nat) (fs : ℚ) (scores : List (NodeId × ℚ)) (evicted : List NodeId),
      (∀ c ∈ cands, c ∈ evicted) →
      (∀ c ∈ cands, ∀ recd, dget node.dht.nodes c = some recd →
        ∀ ch ∈ recd.children, ch ∈ evicted) →
      filter_loop node scoreFuel root sid fuel fs scores [] evicted =
        .error .fuelOut := by
  intro fuel
  induction fuel with
  | zero =>
    intro fs scores evicted _ _
    rfl
  | succ fuel ih =>
    intro fs scores evicted hev hch
    obtain ⟨scores', heq, hlen⟩ := filter_pass_stuck node scoreFuel root cands fs
      scores evicted hscore hrec hev hch
    simp only [filter_loop, hc, heq]
    have hlen0 : ¬ scores'.length = 0 := by
      rw [hlen]
      intro h
      exact hne (List.length_eq_zero.mp (by omega))
    rw [if_neg hlen0]
    exact ih _ _ evicted hev hch

/-- When every candidate of a non-empty sample scores below the initial 0.9
threshold, filter_nodes never terminates: the first pass evicts all
candidates and their children, the acceptance test `cand not in evicted`
then rejects every candidate on every later pass regardless of the relaxed
threshold. -/
theorem filter_nodes_all_low (node : Node) (scoreFuel : Nat) (root : Root)
    (sid : SampleId) (cands : List NodeId)
    (hc : dget node.dht.sample_mapping sid = some cands)
    (hne : cands ≠ [])
    (hscore : ∀ c ∈ cands, ∃ v n', compute_node_score node scoreFuel root c = .ok (v, n') ∧
      v < 9 / 10)
    (hrec : ∀ c ∈ cands, ∃ recd, dget node.dht.nodes c = some recd) :
    ∀ passFuel, filter_nodes node passFuel scoreFuel root sid = .error .fuelOut := by
  intro passFuel
  cases passFuel with
  | zero => rfl
  | succ passFuel =>
    unfold filter_nodes
    obtain ⟨scores', evicted', heq, hlen, _, hcand, hchild⟩ :=
      filter_pass_all_low node scoreFuel root cands (9 / 10) [] [] hscore hrec
    simp only [filter_loop, hc, heq]
    have hlen0 : ¬ scores'.length = 0 := by
      rw [hlen]
      intro h
      exact hne (List.length_eq_zero.mp (by omega))
    rw [if_neg hlen0]
    exact filter_loop_stuck node scoreFuel root sid cands hc hne
      (fun c hcm => ⟨(hscore c hcm).choose, (hscore c hcm).choose_spec.choose,
        (hscore c hcm).choose_spec.choose_spec.1⟩)
      hrec passFuel _ scores' evicted' hcand hchild

/-- C3, amended: when all candidates for the sample score at or above the
initial 0.9 threshold, filter_nodes terminates after a single pass and
returns all of them; but when every candidate scores below 0.9, the first
pass evicts every candidate (with its children), and since the acceptance
test requires a candidate not to be evicted, no later pass — whatever the
relaxed threshold — ever admits anyone: filter_nodes runs out of any amount
of fuel.  The threshold-relaxation rule does not guarantee a non-empty
result. -/
theorem C3_filter_amended (node : Node) (scoreFuel : Nat) (root : Root)
    (sid : SampleId) (cands : List NodeId)
    (hc : dget node.dht.sample_mapping sid = some cands)
    (hne : cands ≠ []) :
    ((∀ c ∈ cands, ∃ v n', compute_node_score node scoreFuel root c = .ok (v, n') ∧
        9 / 10 ≤ v) →
      ∀ passFuel,
        filter_nodes node (passFuel + 1) scoreFuel root sid =
          .ok (setUnion [] cands, node)) ∧
    ((∀ c ∈ cands, ∃ v n', compute_node_score node scoreFuel root c = .ok (v, n') ∧
        v < 9 / 10) →
      (∀ c ∈ cands, ∃ recd, dget node.dht.nodes c = some recd) →
      ∀ passFuel, filter_nodes node passFuel scoreFuel root sid = .error .fuelOut) := by
  constructor
  · intro hscore passFuel
    unfold filter_nodes
    obtain ⟨scores', heq, hlen⟩ :=
      filter_pass_all_high node scoreFuel root cands (9 / 10) [] [] hscore
    simp only [filter_loop, hc, heq]
    have hlen0 : ¬ scores'.length = 0 := by
      rw [hlen]
      simp only [List.length_nil, Nat.zero_add]
      exact fun h => hne (List.length_eq_zero.mp h)
    rw [if_neg hlen0]
    obtain ⟨c0, hc0⟩ := List.exists_mem_of_ne_nil cands hne
    have hnn : setUnion ([] : List NodeId) cands ≠ [] := by
      intro h
      have hm : c0 ∈ setUnion ([] : List NodeId) cands := by
        rw [mem_setUnion]
        exact Or.inr hc0
      rw [h] at hm
      exact absurd hm (List.not_mem_nil c0)
    obtain ⟨c, fl, hcf⟩ := List.exists_cons_of_ne_nil hnn
    rw [hcf]
    exact filter_loop_done node scoreFuel root sid passFuel _ scores' c fl _
  · intro hscore hrec
    exact filter_nodes_all_low node scoreFuel root sid cands hc hne hscore hrec

/-- Concrete state refuting C3: own id 0, node 1 the single candidate for
sample 5, its descendant score for root 3 being 0 (one contact, no reply),
so its node score is 0 as well. -/
def exC3 : Node :=
  { own_id := 0
    dht := { sample_mapping := [(5, [1])]
             nodes := [(0, ⟨0, [1], []⟩), (1, ⟨1, [], [0]⟩)]
             scores := [(3, ⟨[(1, [(9, 5)])], [(1, [])]⟩)] } }

/-- C3, counterexample: on `exC3` the candidate set for sample 5 is the
non-empty `[1]`, scoring terminates (node 1 scores 0), yet filter_nodes
exhausts every amount of pass fuel instead of returning a non-empty set:
pass one evicts the sole candidate, and eviction is permanent, so the
threshold relaxation never helps. -/
theorem C3_counterexample :
    dget exC3.dht.sample_mapping 5 = some [1] ∧
    compute_node_score exC3 2 3 1 = .ok ((0 : ℚ), exC3) ∧
    ∀ passFuel, filter_nodes exC3 passFuel 2 3 5 = .error .fuelOut := by
  refine ⟨rfl, rfl, ?_⟩
  apply filter_nodes_all_low exC3 2 3 5 [1] rfl (by simp)
  · intro c hcm
    obtain rfl : c = 1 := by simpa using hcm
    exact ⟨0, exC3, rfl, by norm_num⟩
  · intro c hcm
    obtain rfl : c = 1 := by simpa using hcm
    exact ⟨⟨1, [], [0]⟩, rfl⟩

/-- Concrete state for the positive branch of the amended C3: own id 0,
node 2 the single candidate for sample 7, reached through node 1 which is a
direct peer; nodes 1 and 2 each have one contacted and one replied pair for
root 3, so candidate 2's node score is 1 ≥ 0.9 and one pass admits it. -/
def exC3pos : Node :=
  { own_id := 0
    dht := { sample_mapping := [(7, [2])]
             nodes := [(0, ⟨0, [1], []⟩), (1, ⟨1, [2], [0]⟩), (2, ⟨2, [], [1]⟩)]
             scores := [(3, ⟨[(1, [(9, 7)]), (2, [(9, 7)])],
                            [(1, [(9, 7)]), (2, [(9, 7)])]⟩)] } }

/-- C3, witness: the amended theorem applied at `exC3pos` (all candidates at
or above 0.9: one pass returns the whole candidate set) and at `exC3` (all
candidates below 0.9: every amount of fuel is exhausted). -/
theorem C3_witness :
    filter_nodes exC3pos 1 2 3 7 = .ok ([2], exC3pos) ∧
    filter_nodes exC3 5 2 3 5 = .error .fuelOut := by
  constructor
  · have h := (C3_filter_amended exC3pos 2 3 7 [2] rfl (by simp)).1 ?_ 0
    · exact h
    · intro c hcm
      obtain rfl : c = 2 := by simpa using hcm
      refine ⟨1, exC3pos, ?_, by norm_num⟩
      norm_num [compute_node_score, compute_descendant_score, node_score_loop,
        ns_round, ns_parents, dget, dset, exC3pos, List.foldl]
  · apply (C3_filter_amended exC3 2 3 5 [1] rfl (by simp)).2
    · intro c hcm
      obtain rfl : c = 1 := by simpa using hcm
      exact ⟨0, exC3, rfl, by norm_num⟩
    · intro c hcm
      obtain rfl : c = 1 := by simpa using hcm
      exact ⟨⟨1, [], [0]⟩, rfl⟩

/-! ## Claim C9: the three queries are read-only -/

/-- compute_descendant_score returns the input state on success. -/
theorem compute_descendant_score_node (node : Node) (root : Root) (nid : NodeId)
    (v : ℚ) (n' : Node)
    (h : compute_descendant_score node root nid = .ok (v, n')) : n' = node := by
  unfold compute_descendant_score at h
  split at h
  · exact absurd h (by simp)
  · split at h
    · exact absurd h (by simp)
    · split at h
      · split at h
        · exact absurd h (by simp)
        · exact ((Prod.mk.injEq _ node v n').mp (Except.ok.inj h)).2.symm
      · exact ((Prod.mk.injEq _ node v n').mp (Except.ok.inj h)).2.symm

/-- node_score_loop returns the input state on success. -/
theorem node_score_loop_node (node : Node) (root : Root) :
    ∀ (fuel : Nat) (cur : Dict NodeId ℚ) (best v : ℚ) (n' : Node),
      node_score_loop node root fuel cur best = .ok (v, n') → n' = node := by
  intro fuel
  induction fuel with
  | zero =>
    intro cur best v n' h
    cases cur with
    | nil =>
      rw [node_score_loop_nil] at h
      exact ((Prod.mk.injEq best node v n').mp (Except.ok.inj h)).2.symm
    | cons x xs =>
      rw [node_score_loop_zero] at h
      exact absurd h (by simp)
  | succ fuel ih =>
    intro cur best v n' h
    cases cur with
    | nil =>
      rw [node_score_loop_nil] at h
      exact ((Prod.mk.injEq best node v n').mp (Except.ok.inj h)).2.symm
    | cons x xs =>
      rw [node_score_loop_cons] at h
      split at h
      · exact absurd h (by simp)
      · exact ih _ _ v n' h

/-- compute_node_score returns the input state on success. -/
theorem compute_node_score_node (node : Node) (fuel : Nat) (root : Root)
    (nid : NodeId) (v : ℚ) (n' : Node)
    (h : compute_node_score node fuel root nid = .ok (v, n')) : n' = node := by
  unfold compute_node_score at h
  split at h
  · exact absurd h (by simp)
  · split at h
    · exact absurd h (by simp)
    · exact node_score_loop_node node root fuel _ 0 v n' h

/-- filter_loop returns the input state on success. -/
theorem filter_loop_node (node : Node) (scoreFuel : Nat) (root : Root)
    (sid : SampleId) :
    ∀ (fuel : Nat) (fs : ℚ) (scores : List (NodeId × ℚ))
      (filtered evicted fl : List NodeId) (n' : Node),
      filter_loop node scoreFuel root sid fuel fs scores filtered evicted =
        .ok (fl, n') → n' = node := by
  intro fuel
  induction fuel with
  | zero =>
    intro fs scores filtered evicted fl n' h
    cases filtered with
    | nil => exact absurd h (by simp [filter_loop])
    | cons c cf =>
      rw [filter_loop_done] at h
      exact ((Prod.mk.injEq _ node fl n').mp (Except.ok.inj h)).2.symm
  | succ fuel ih =>
    intro fs scores filtered evicted fl n' h
    cases filtered with
    | cons c cf =>
      rw [filter_loop_done] at h
      exact ((Prod.mk.injEq _ node fl n').mp (Except.ok.inj h)).2.symm
    | nil =>
      simp only [filter_loop] at h
      split at h
      · exact absurd h (by simp)
      · split at h
        · exact absurd h (by simp)
        · split at h
          · exact absurd h (by simp)
          · exact ih _ _ _ _ fl n' h

/-- C9: compute_descendant_score, compute_node_score and filter_nodes are
read-only queries: on every input on which they return a value, the returned
node state — node map, scores map and sample mapping alike — is exactly the
input state. -/
theorem C9_queries_read_only (node : Node) (scoreFuel passFuel : Nat)
    (root : Root) (node_id : NodeId) (sid : SampleId) :
    (∀ v n', compute_descendant_score node root node_id = .ok (v, n') → n' = node) ∧
    (∀ v n', compute_node_score node scoreFuel root node_id = .ok (v, n') → n' = node) ∧
    (∀ fl n', filter_nodes node passFuel scoreFuel root sid = .ok (fl, n') → n' = node) :=
  ⟨fun v n' h => compute_descendant_score_node node root node_id v n' h,
   fun v n' h => compute_node_score_node node scoreFuel root node_id v n' h,
   fun fl n' h => filter_loop_node node scoreFuel root sid passFuel _ _ _ _ fl n' h⟩

/-- C9, witness: on `exC3pos` all three queries succeed, and the read-only
theorem applied to the filter run yields the unchanged state. -/
theorem C9_witness :
    compute_descendant_score exC3pos 3 2 = .ok (1, exC3pos) ∧
    compute_node_score exC3pos 2 3 2 = .ok (1, exC3pos) ∧
    filter_nodes exC3pos 1 2 3 7 = .ok ([2], exC3pos) ∧
    exC3pos = exC3pos := by
  have h3 : filter_nodes exC3pos 1 2 3 7 = .ok ([2], exC3pos) := by
    norm_num [filter_nodes, filter_loop, filter_pass, compute_node_score,
      compute_descendant_score, node_score_loop, ns_round, ns_parents,
      dget, dset, setAdd, setUnion, exC3pos, List.foldl]
  refine ⟨?_, ?_, h3, (C9_queries_read_only exC3pos 2 1 3 2 7).2.2 [2] exC3pos h3⟩
  · norm_num [compute_descendant_score, dget, exC3pos]
  · norm_num [compute_node_score, compute_descendant_score, node_score_loop,
      ns_round, ns_parents, dget, dset, exC3pos, List.foldl]

end RatedList
